import Mathlib

/-!
Verification of the tulliolo/bip39 core algorithms: a shallow embedding of the
BIP-39 mnemonic codec (`tulliolo/bip39/mnemonic.py`), the entropy
transformations (`tulliolo/bip39/utils/transformation.py`), the split/join
composition (`tulliolo/bip39/cli/transform.py`) and the LSB steganography
codec (`tulliolo/bip39/utils/steganography.py`).

Bytes are modelled as natural numbers (well-formed when `< 256`), byte buffers
as `List Nat`, machine integers as `Nat` with explicit masks where the code
masks.  External collaborators (SHA-256, the 2048-entry wordlist) are
parameters of the definitions, constrained only by the structural facts the
code relies on (digest shape, wordlist size and distinctness).
-/

/-- Big-endian byte decoding, mirroring Python
`int.from_bytes(value, byteorder="big")`. -/
def fromBytesBE (l : List Nat) : Nat :=
  List.foldl (fun a b => a * 256 + b) 0 l

/-- Big-endian byte encoding of a natural into a fixed number of bytes,
mirroring Python `value.to_bytes(n, byteorder="big")`. -/
def toBytesBE : Nat → Nat → List Nat
  | 0, _ => []
  | n + 1, v => toBytesBE n (v / 256) ++ [v % 256]

/-! ### Size tables

`mnemonic.py` derives these from `ENTROPY_SIZE_RANGE = range(128, 288, 32)`:
`WORD_COUNT_ALL = (ceil(es / 11))_es` and
`CHECKSUM_SIZE_ALL = (wc * 11 - es)_(wc, es)`. -/

def ENTROPY_SIZE_RANGE : List Nat := [128, 160, 192, 224, 256]

def WORD_COUNT_ALL : List Nat := [12, 15, 18, 21, 24]

def CHECKSUM_SIZE_ALL : List Nat := [4, 5, 6, 7, 8]

/-- `(WORD_COUNT_ALL[i], CHECKSUM_SIZE_ALL[i])` for `ENTROPY_SIZE_RANGE[i] = es`;
the zip-lookup performed in `Mnemonic.value` and `Mnemonic.checksum`. -/
def sizesForEntropy : Nat → Option (Nat × Nat)
  | 128 => some (12, 4)
  | 160 => some (15, 5)
  | 192 => some (18, 6)
  | 224 => some (21, 7)
  | 256 => some (24, 8)
  | _ => none

/-- `(ENTROPY_SIZE_RANGE[i], CHECKSUM_SIZE_ALL[i])` for `WORD_COUNT_ALL[i] = wc`;
the zip-lookup performed in `Mnemonic.from_value`. -/
def sizesForWordCount : Nat → Option (Nat × Nat)
  | 12 => some (128, 4)
  | 15 => some (160, 5)
  | 18 => some (192, 6)
  | 21 => some (224, 7)
  | 24 => some (256, 8)
  | _ => none

/-- Python `wordlist.index(word)`, returning `none` where Python raises
`ValueError` for a word absent from the list. -/
def listIndexOf : List String → String → Option Nat
  | [], _ => none
  | x :: xs, w => if x = w then some 0 else (listIndexOf xs w).map (· + 1)

/-- Lowercase hexadecimal rendering of a natural, mirroring Python
`hex(x)[2:]` (so `0` renders as `"0"`). -/
def toHexString (n : Nat) : String :=
  String.mk (Nat.toDigits 16 n)

/-- The error cases raised by `Mnemonic.from_value` (`TypeError` and the
`ValueError`s tagged `"invalid mnemonic size"`, `"invalid mnemonic value"`
and `"invalid checksum"`). -/
inductive MnemonicError where
  | invalidSize (obtained : Nat)
  | unknownWord (word : String)
  | checksumMismatch (expected obtained : String)
  deriving DecidableEq, Repr

/-- A BIP-39 mnemonic, identified (as in `Mnemonic.__eq__`) by its entropy
byte buffer. -/
structure Mnemonic where
  entropy : List Nat
  deriving DecidableEq, Repr

/-- `Mnemonic.checksum`: the checksum-size lookup followed by
`entropy_hash[0] >> (8 - checksum_size)` on the SHA-256 digest.  `sha` is the
external `hashlib.sha256(...).digest()` collaborator. -/
def Mnemonic.checksum (sha : List Nat → List Nat) (m : Mnemonic) : Nat :=
  let cs := ((sizesForEntropy (8 * m.entropy.length)).getD (0, 0)).2
  (sha m.entropy).headD 0 >>> (8 - cs)

/-- `Mnemonic.value`: packs `(entropy <<< checksum_size) ||| checksum` and maps
each most-significant-first 11-bit chunk through the wordlist.  `wl` is the
external 2048-word dictionary. -/
def Mnemonic.value (wl : List String) (sha : List Nat → List Nat) (m : Mnemonic) :
    List String :=
  let wc := ((sizesForEntropy (8 * m.entropy.length)).getD (0, 0)).1
  let cs := ((sizesForEntropy (8 * m.entropy.length)).getD (0, 0)).2
  let sequence := (fromBytesBE m.entropy <<< cs) ||| m.checksum sha
  (List.range wc).map
    (fun i => wl.getD ((sequence >>> ((wc - i - 1) * 11)) &&& (2 ^ 11 - 1)) "")

/-- The `sequence = (sequence << WORD_SIZE) | wordlist.index(word)` loop of
`Mnemonic.from_value`, stopping at the first unknown word. -/
def wordsSequence (wl : List String) (words : List String) : Except MnemonicError Nat :=
  words.foldl
    (fun acc w => acc.bind (fun s =>
      match listIndexOf wl w with
      | some wid => Except.ok ((s <<< 11) ||| wid)
      | none => Except.error (MnemonicError.unknownWord w)))
    (Except.ok 0)

/-- `Mnemonic.from_value`: word-count validation, word-to-index folding,
entropy/checksum split, checksum verification with the `fix_checksum`
escape hatch. -/
def Mnemonic.from_value (wl : List String) (sha : List Nat → List Nat)
    (words : List String) (fix_checksum : Bool) : Except MnemonicError Mnemonic :=
  match sizesForWordCount words.length with
  | none => Except.error (MnemonicError.invalidSize words.length)
  | some (es, cs) =>
    (wordsSequence wl words).bind (fun sequence =>
      let entropy := toBytesBE (es / 8) (sequence >>> cs)
      let checksum := sequence &&& (2 ^ cs - 1)
      let result : Mnemonic := ⟨entropy⟩
      if checksum ≠ result.checksum sha then
        if fix_checksum then Except.ok result
        else Except.error
          (MnemonicError.checksumMismatch (toHexString (result.checksum sha))
            (toHexString checksum))
      else Except.ok result)

/-! ### Transformations (`utils/transformation.py`) -/

/-- Little-endian unpacking of the low `s` bits of `v`. -/
def natToBits : Nat → Nat → List Bool
  | 0, _ => []
  | s + 1, v => (v % 2 == 1) :: natToBits s (v / 2)

/-- Little-endian packing of a bit list into a natural. -/
def bitsToNat (l : List Bool) : Nat :=
  l.foldr (fun b a => 2 * a + (if b then 1 else 0)) 0

/-- Bit reversal of the `size`-bit representation of `v`, modelling
`int(bin(value)[2:].zfill(size)[::-1], 2)`: bit `j` of the result is bit
`size - 1 - j` of `v`. -/
def mirrorBits (size v : Nat) : Nat :=
  bitsToNat (natToBits size v).reverse

/-- The `Transformation` enum: NEGATIVE inverts all bits, MIRROR reads the
bits from right to left. -/
inductive Transformation where
  | negative
  | mirror
  deriving DecidableEq, Repr

/-- `Transformation.__call__`: big-endian decode, transform, re-encode into
`size // 8` bytes. -/
def Transformation.apply (t : Transformation) (value : List Nat) : List Nat :=
  let size := 8 * value.length
  let v := fromBytesBE value
  match t with
  | .negative => toBytesBE value.length (2 ^ size - v - 1)
  | .mirror => toBytesBE value.length (mirrorBits size v)

/-- `Mnemonic.transform`: a new mnemonic built from the transformed entropy. -/
def Mnemonic.transform (m : Mnemonic) (t : Transformation) : Mnemonic :=
  ⟨t.apply m.entropy⟩

/-- The split path of `cli/transform.py run_command`: apply the transformation,
then halve the entropy into two mnemonics. -/
def splitMnemonic (m : Mnemonic) (t : Transformation) : Mnemonic × Mnemonic :=
  let result := m.transform t
  (⟨result.entropy.take (result.entropy.length / 2)⟩,
   ⟨result.entropy.drop (result.entropy.length / 2)⟩)

/-- The join path of `cli/transform.py run_command`: concatenate the two
entropies (first then second), then apply the transformation. -/
def joinMnemonics (m1 m2 : Mnemonic) (t : Transformation) : Mnemonic :=
  (Mnemonic.mk (m1.entropy ++ m2.entropy)).transform t

/-! ### Steganography (`utils/steganography.py`) -/

/-- An RGB pixel: three 8-bit channels. -/
abbrev Pixel := Nat × Nat × Nat

/-- The in-memory image abstraction used through `image.size`, `getpixel`
and `putpixel`. -/
structure Image where
  width : Nat
  height : Nat
  getpixel : Nat × Nat → Pixel

/-- `operator.mul(*image.size)`. -/
def Image.sizePx (img : Image) : Nat := img.width * img.height

/-- `putpixel`: functional update of one coordinate. -/
def Image.putpixel (img : Image) (c : Nat × Nat) (p : Pixel) : Image :=
  { img with getpixel := fun cc => if cc = c then p else img.getpixel cc }

/-- The `Direction` enum: the four pixel traversal orders. -/
inductive Direction where
  | horizontal
  | vertical
  | reverseHorizontal
  | reverseVertical
  deriving DecidableEq, Repr

/-- The `index` formula of `__get_pixel`. -/
def getPixelIndex (W H : Nat) (d : Direction) (ordinal : Nat) : Nat :=
  let S := W * H
  match d with
  | .horizontal => ordinal
  | .vertical => ((ordinal * W) + ordinal / H) % S
  | .reverseHorizontal => (S - ordinal - 1) % S
  | .reverseVertical => (((S - ordinal - 1) * W) + (S - ordinal - 1) / H) % S

/-- The coordinates `(index % width, index // width)` of `__get_pixel`. -/
def coordOfOrdinal (W H : Nat) (d : Direction) (ordinal : Nat) : Nat × Nat :=
  (getPixelIndex W H d ordinal % W, getPixelIndex W H d ordinal / W)

/-- `__get_pixel`: the nth pixel in the given direction, with its coordinates. -/
def Image.getPixel (img : Image) (d : Direction) (ordinal : Nat) : (Nat × Nat) × Pixel :=
  let coordinates := coordOfOrdinal img.width img.height d ordinal
  (coordinates, img.getpixel coordinates)

/-- Inverse of the direction traversal (proof device, not in the source):
maps coordinates back to the pixel ordinal that visits them. -/
def ordOfCoord (W H : Nat) (d : Direction) (c : Nat × Nat) : Nat :=
  let S := W * H
  let idx := c.2 * W + c.1
  match d with
  | .horizontal => idx
  | .vertical => (idx % W) * H + idx / W
  | .reverseHorizontal => S - 1 - idx
  | .reverseVertical => S - 1 - ((idx % W) * H + idx / W)

/-- `pixel[k]` for `k` in {0, 1, 2}. -/
def channel : Pixel → Nat → Nat
  | (r, _, _), 0 => r
  | (_, g, _), 1 => g
  | (_, _, b), _ => b

/-- One channel of a modified pixel in `__get_modified_pixels`: for slot
`s = (ordinal % 3) * 3 + k < 8` the low bit carries payload bit `7 - s`
(MSB first); slot 8 carries the continuation flag, 1 when more payload
bytes follow and 0 on the last byte. -/
def modChannel (pixel : Pixel) (value ordinal : Nat) (cont : Bool) (k : Nat) : Nat :=
  if (ordinal % 3) * 3 + k < 8 then
    (channel pixel k &&& (2 ^ 8 - 2)) ||| ((value >>> (7 - ((ordinal % 3) * 3 + k))) &&& 1)
  else if cont then (channel pixel k &&& (2 ^ 8 - 2)) ||| 1
  else channel pixel k &&& (2 ^ 8 - 2)

/-- One modified pixel (the three-channel tuple comprehension of
`__get_modified_pixels`). -/
def modPixel (pixel : Pixel) (value ordinal : Nat) (cont : Bool) : Pixel :=
  (modChannel pixel value ordinal cont 0,
   modChannel pixel value ordinal cont 1,
   modChannel pixel value ordinal cont 2)

/-- The `ValueError("invalid size", "message is too long for this image")`
raised by `__get_modified_pixels`. -/
inductive StegoError where
  | invalidSize
  deriving DecidableEq, Repr

/-- `__get_modified_pixels`: the capacity guard followed by the generator of
`(coordinates, modified pixel)`, three pixels per payload byte. -/
def getModifiedPixels (img : Image) (message : List Nat) (d : Direction) :
    Except StegoError (List ((Nat × Nat) × Pixel)) :=
  if img.sizePx < message.length * 3 then Except.error StegoError.invalidSize
  else Except.ok
    (message.enum.flatMap (fun iv =>
      (List.range 3).map (fun j =>
        let ordinal := 3 * iv.1 + j
        let cp := img.getPixel d ordinal
        (cp.1, modPixel cp.2 iv.2 ordinal (decide (iv.1 < message.length - 1))))))

/-- `encode` (the pixel-writing core, file handling aside): every modified
pixel is written into a copy of the input image. -/
def encode (img : Image) (message : List Nat) (d : Direction) : Except StegoError Image :=
  (getModifiedPixels img message d).map
    (fun mods => mods.foldl (fun im cp => im.putpixel cp.1 cp.2) img)

/-- One channel of `decode`'s accumulator update: slots 0 to 7 shift in the
channel low bit, slot 8 reads the continuation flag. -/
def decodeChannelStep (i : Nat) (pix : Pixel) (st : Nat × Nat × Bool) (j : Nat) :
    Nat × Nat × Bool :=
  if (i % 3) * 3 + j < 8 then ((st.1 <<< 1) ||| (channel pix j &&& 1), st.2.1 + 1, true)
  else if channel pix j &&& 1 ≠ 0 then (st.1, st.2.1, true)
  else (st.1, st.2.1, false)

/-- The body of `decode`'s `while goon and i < image_size - 1` loop: a pixel
is read and its three channels processed only while `goon` holds. -/
def decodeStep (img : Image) (d : Direction) (st : Nat × Nat × Bool) (i : Nat) :
    Nat × Nat × Bool :=
  if st.2.2 then [0, 1, 2].foldl (decodeChannelStep i (img.getPixel d i).2) st
  else st

/-- `decode` (the pixel-reading core): traverses at most `image_size - 1`
pixels, accumulating channel low bits, and stops at the first 0 continuation
flag.  `none` models the integer `0` sentinel Python returns when no hidden
message is found; `some bytes` models the
`message.to_bytes(ceil(message_size / 8), "big")` result. -/
def decode (img : Image) (d : Direction) : Option (List Nat) :=
  let st := (List.range (img.sizePx - 1)).foldl (decodeStep img d) (0, 0, true)
  if st.2.2 then none
  else some (toBytesBE ((st.2.1 + 7) / 8) st.1)

/-! ### Spec-side definition and concrete instances for evaluation -/

/-- Spec-side definition for the checksum law: the top `k` bits of the digest
read as one big-endian integer, following the specification wording
`topBits(SHA256(e), len(e)/32)`. -/
def specTopBits (digest : List Nat) (k : Nat) : Nat :=
  fromBytesBE digest >>> (8 * digest.length - k)

/-- A concrete 2048-entry wordlist with pairwise distinct entries, standing in
for the external dictionary in concrete evaluations. -/
def wlW : List String :=
  (List.range 2048).map (fun n => String.mk (List.replicate n 'a'))

/-- A concrete stand-in for the external SHA-256 digest function, with the
digest shape the code relies on: 32 bytes, each below 256. -/
def shaW : List Nat → List Nat := fun _ => List.replicate 32 128

/-- A 3 by 1 all-black image: a 1-byte payload exactly fills its capacity. -/
def imgTight : Image := ⟨3, 1, fun _ => (0, 0, 0)⟩

/-- A 2 by 2 all-black image: a 1-byte payload leaves one spare pixel. -/
def imgSpare : Image := ⟨2, 2, fun _ => (0, 0, 0)⟩

/-- A 2 by 2 image whose channels are all odd: every continuation flag read
by decode is 1, so no termination flag is ever found. -/
def imgOnes : Image := ⟨2, 2, fun _ => (1, 1, 1)⟩

/-- `imgSpare` after hiding the one-byte payload `[5]` horizontally, written
in the closed per-ordinal form produced by `__get_modified_pixels`. -/
def img2W : Image :=
  ((List.range 3).map (fun o => ((imgSpare.getPixel Direction.horizontal o).1,
    modPixel (imgSpare.getPixel Direction.horizontal o).2 (([5] : List Nat).getD (o / 3) 0) o
      (decide (o / 3 < ([5] : List Nat).length - 1))))).foldl
    (fun im cp => im.putpixel cp.1 cp.2) imgSpare

theorem fromBytesBE_shift (l : List Nat) : ∀ a : Nat,
    List.foldl (fun x b => x * 256 + b) a l = a * 256 ^ l.length + fromBytesBE l := by
  induction l with
  | nil => intro a; simp [fromBytesBE]
  | cons b t ih =>
    intro a
    simp only [List.foldl_cons, List.length_cons, fromBytesBE] at *
    rw [ih (a * 256 + b), ih (0 * 256 + b)]
    ring

theorem fromBytesBE_cons (b : Nat) (t : List Nat) :
    fromBytesBE (b :: t) = b * 256 ^ t.length + fromBytesBE t := by
  have h := fromBytesBE_shift t b
  simp only [fromBytesBE, List.foldl_cons, Nat.zero_mul, Nat.zero_add] at *
  exact h

theorem fromBytesBE_concat (xs : List Nat) (b : Nat) :
    fromBytesBE (xs ++ [b]) = fromBytesBE xs * 256 + b := by
  simp [fromBytesBE, List.foldl_append]

theorem fromBytesBE_lt (l : List Nat) (h : ∀ b ∈ l, b < 256) :
    fromBytesBE l < 256 ^ l.length := by
  induction l with
  | nil => simp [fromBytesBE]
  | cons b t ih =>
    rw [fromBytesBE_cons]
    have hb : b < 256 := h b (List.mem_cons_self _ _)
    have ht : fromBytesBE t < 256 ^ t.length := ih (fun x hx => h x (List.mem_cons_of_mem _ hx))
    calc b * 256 ^ t.length + fromBytesBE t
        < b * 256 ^ t.length + 256 ^ t.length := by omega
      _ = (b + 1) * 256 ^ t.length := by ring
      _ ≤ 256 * 256 ^ t.length := by
          exact Nat.mul_le_mul_right _ (by omega)
      _ = 256 ^ (t.length + 1) := by ring
      _ = 256 ^ (b :: t).length := by simp

theorem toBytesBE_length (n v : Nat) : (toBytesBE n v).length = n := by
  induction n generalizing v with
  | zero => simp [toBytesBE]
  | succ k ih => simp [toBytesBE, ih]

theorem toBytesBE_mem_lt (n v : Nat) : ∀ b ∈ toBytesBE n v, b < 256 := by
  induction n generalizing v with
  | zero => simp [toBytesBE]
  | succ k ih =>
    intro b hb
    simp only [toBytesBE, List.mem_append, List.mem_singleton] at hb
    rcases hb with hb | hb
    · exact ih _ b hb
    · subst hb; exact Nat.mod_lt _ (by omega)

theorem fromBytesBE_toBytesBE (n : Nat) : ∀ v : Nat, v < 256 ^ n →
    fromBytesBE (toBytesBE n v) = v := by
  induction n with
  | zero => intro v hv; interval_cases v; simp [toBytesBE, fromBytesBE]
  | succ k ih =>
    intro v hv
    have hdiv : v / 256 < 256 ^ k := by
      rw [Nat.div_lt_iff_lt_mul (by omega)]
      calc v < 256 ^ (k + 1) := hv
        _ = 256 ^ k * 256 := by ring
    rw [toBytesBE, fromBytesBE_concat, ih _ hdiv]
    omega

theorem toBytesBE_fromBytesBE (l : List Nat) (h : ∀ b ∈ l, b < 256) :
    toBytesBE l.length (fromBytesBE l) = l := by
  induction l using List.reverseRecOn with
  | nil => simp [toBytesBE, fromBytesBE]
  | append_singleton xs b ih =>
    have hb : b < 256 := h b (by simp)
    have hxs : ∀ x ∈ xs, x < 256 := fun x hx => h x (by simp [hx])
    rw [fromBytesBE_concat]
    have hlen : (xs ++ [b]).length = xs.length + 1 := by simp
    rw [hlen, toBytesBE]
    have h1 : (fromBytesBE xs * 256 + b) / 256 = fromBytesBE xs := by
      rw [Nat.mul_comm (fromBytesBE xs) 256, Nat.mul_add_div (by omega)]
      omega
    have h2 : (fromBytesBE xs * 256 + b) % 256 = b := by
      rw [Nat.mul_add_mod']
      exact Nat.mod_eq_of_lt hb
    rw [h1, h2, ih hxs]

/-- `x <<< n ||| y` equals `x * 2 ^ n + y` when `y` fits in `n` bits; the code
packs disjoint bit fields with shift-and-or. -/
theorem shiftLeft_or_eq (x y n : Nat) (hy : y < 2 ^ n) :
    (x <<< n) ||| y = x * 2 ^ n + y := by
  rw [Nat.shiftLeft_eq, Nat.mul_comm x (2 ^ n), ← Nat.mul_add_lt_is_or hy x]

theorem listIndexOf_getD (wl : List String) (hnd : wl.Nodup) (i : Nat)
    (hi : i < wl.length) : listIndexOf wl (wl.getD i "") = some i := by
  induction wl generalizing i with
  | nil => simp at hi
  | cons x xs ih =>
    rcases List.nodup_cons.mp hnd with ⟨hx, hxs⟩
    cases i with
    | zero => simp [listIndexOf]
    | succ j =>
      have hj : j < xs.length := by simpa using hi
      have hne : x ≠ xs.getD j "" := by
        intro hx2
        apply hx
        have hmem : xs.getD j "" ∈ xs := by
          rw [List.getD_eq_getElem?_getD, List.getElem?_eq_getElem hj]
          exact List.getElem_mem hj
        exact hx2 ▸ hmem
      simp only [List.getD_cons_succ, listIndexOf, if_neg hne, ih hxs j hj, Option.map_some']

/-- Folding `from_value`'s word loop over words read back from the wordlist
recovers the index fold, provided the wordlist has no duplicates. -/
theorem wordsSequence_eval (wl : List String) (hnd : wl.Nodup) (idxs : List Nat)
    (h : ∀ i ∈ idxs, i < wl.length) (a : Nat) :
    (idxs.map (fun i => wl.getD i "")).foldl
      (fun acc w => acc.bind (fun s =>
        match listIndexOf wl w with
        | some wid => Except.ok ((s <<< 11) ||| wid)
        | none => Except.error (MnemonicError.unknownWord w)))
      (Except.ok a)
      = Except.ok (idxs.foldl (fun s i => (s <<< 11) ||| i) a) := by
  induction idxs generalizing a with
  | nil => simp
  | cons i t ih =>
    have hi : i < wl.length := h i (List.mem_cons_self _ _)
    have ht : ∀ j ∈ t, j < wl.length := fun j hj => h j (List.mem_cons_of_mem _ hj)
    simp only [List.map_cons, List.foldl_cons, Except.bind, listIndexOf_getD wl hnd i hi]
    exact ih ht ((a <<< 11) ||| i)

/-- The shift-and-or fold over 11-bit digits is the base-2048 digit fold. -/
theorem foldl_shiftOr_eq_foldl_arith (idxs : List Nat) (h : ∀ i ∈ idxs, i < 2048) :
    ∀ a : Nat, idxs.foldl (fun s i => (s <<< 11) ||| i) a
      = idxs.foldl (fun s i => s * 2048 + i) a := by
  induction idxs with
  | nil => intro a; simp
  | cons i t ih =>
    intro a
    have hi : i < 2048 := h i (List.mem_cons_self _ _)
    have ht : ∀ j ∈ t, j < 2048 := fun j hj => h j (List.mem_cons_of_mem _ hj)
    have h211 : (2048 : Nat) = 2 ^ 11 := by norm_num
    simp only [List.foldl_cons]
    rw [shiftLeft_or_eq a i 11 (h211 ▸ hi), ih ht, ← h211]

/-- Reassembling the most-significant-first 11-bit chunks of `seq` recovers
`seq` modulo `2048 ^ wc`. -/
theorem digits_foldl (wc : Nat) : ∀ (a seq : Nat),
    ((List.range wc).map (fun i => seq / 2 ^ ((wc - i - 1) * 11) % 2048)).foldl
      (fun s d => s * 2048 + d) a
    = a * 2048 ^ wc + seq % 2048 ^ wc := by
  induction wc with
  | zero => intro a seq; simp; omega
  | succ k ih =>
    intro a seq
    rw [List.range_succ_eq_map, List.map_cons, List.map_map, List.foldl_cons]
    have hcomp :
        ((fun i => seq / 2 ^ ((k + 1 - i - 1) * 11) % 2048) ∘ Nat.succ)
          = fun i => seq / 2 ^ ((k - i - 1) * 11) % 2048 := by
      funext i
      simp only [Function.comp_apply, Nat.succ_eq_add_one]
      have harg : k + 1 - (i + 1) - 1 = k - i - 1 := by omega
      rw [harg]
    rw [hcomp, ih]
    have h1 : k + 1 - 0 - 1 = k := by omega
    rw [h1]
    have h2 : (2 : Nat) ^ (k * 11) = 2048 ^ k := by
      rw [show (2048 : Nat) = 2 ^ 11 from rfl, ← Nat.pow_mul, Nat.mul_comm]
    have h3 : seq % 2048 ^ (k + 1) = seq % 2048 ^ k + 2048 ^ k * (seq / 2048 ^ k % 2048) := by
      rw [Nat.pow_succ, Nat.mod_mul]
    rw [h2, h3]
    ring

/-- Core of the entropy-to-words round trip, for one row of the size tables:
`from_value (value m) = ok m` with `fix_checksum = false`. -/
theorem from_value_value_core (wl : List String) (sha : List Nat → List Nat)
    (hwl : wl.length = 2048) (hnd : wl.Nodup) (e : List Nat) (wc cs : Nat)
    (hlook : sizesForEntropy (8 * e.length) = some (wc, cs))
    (hlook2 : sizesForWordCount wc = some (8 * e.length, cs))
    (hwcs : 8 * e.length + cs = 11 * wc)
    (hcs8 : cs ≤ 8)
    (hwf : ∀ b ∈ e, b < 256)
    (hsha : (sha e).headD 0 < 256) :
    Mnemonic.from_value wl sha (Mnemonic.value wl sha ⟨e⟩) false = Except.ok ⟨e⟩ := by
  have hE : fromBytesBE e < 2 ^ (8 * e.length) := by
    calc fromBytesBE e < 256 ^ e.length := fromBytesBE_lt e hwf
      _ = 2 ^ (8 * e.length) := by
          rw [show (256 : Nat) = 2 ^ 8 by norm_num, ← Nat.pow_mul]
  have hCdef : Mnemonic.checksum sha ⟨e⟩ = (sha e).headD 0 >>> (8 - cs) := by
    simp [Mnemonic.checksum, hlook]
  have hC : Mnemonic.checksum sha ⟨e⟩ < 2 ^ cs := by
    rw [hCdef, Nat.shiftRight_eq_div_pow]
    rw [Nat.div_lt_iff_lt_mul (Nat.two_pow_pos _)]
    calc (sha e).headD 0 < 256 := hsha
      _ = 2 ^ (cs + (8 - cs)) := by
          rw [show cs + (8 - cs) = 8 by omega]
          norm_num
      _ = 2 ^ cs * 2 ^ (8 - cs) := by rw [Nat.pow_add]
  have hseq : (fromBytesBE e <<< cs) ||| Mnemonic.checksum sha ⟨e⟩
      = fromBytesBE e * 2 ^ cs + Mnemonic.checksum sha ⟨e⟩ :=
    shiftLeft_or_eq _ _ cs hC
  have hseqlt : fromBytesBE e * 2 ^ cs + Mnemonic.checksum sha ⟨e⟩ < 2 ^ (11 * wc) := by
    calc fromBytesBE e * 2 ^ cs + Mnemonic.checksum sha ⟨e⟩
        < fromBytesBE e * 2 ^ cs + 2 ^ cs := by omega
      _ = (fromBytesBE e + 1) * 2 ^ cs := by ring
      _ ≤ 2 ^ (8 * e.length) * 2 ^ cs := Nat.mul_le_mul_right _ (by omega)
      _ = 2 ^ (8 * e.length + cs) := by rw [Nat.pow_add]
      _ = 2 ^ (11 * wc) := by rw [hwcs]
  have hval : Mnemonic.value wl sha ⟨e⟩
      = (List.range wc).map (fun i =>
          wl.getD (((fromBytesBE e * 2 ^ cs + Mnemonic.checksum sha ⟨e⟩) >>>
            ((wc - i - 1) * 11)) &&& (2 ^ 11 - 1)) "") := by
    simp only [Mnemonic.value, hlook, Option.getD_some, hseq]
  have hdig : ∀ i : Nat,
      ((fromBytesBE e * 2 ^ cs + Mnemonic.checksum sha ⟨e⟩) >>> ((wc - i - 1) * 11))
        &&& (2 ^ 11 - 1)
      = (fromBytesBE e * 2 ^ cs + Mnemonic.checksum sha ⟨e⟩) /
          2 ^ ((wc - i - 1) * 11) % 2048 := by
    intro i
    rw [Nat.and_pow_two_sub_one_eq_mod, Nat.shiftRight_eq_div_pow]
  rw [hval]
  simp only [hdig]
  rw [Mnemonic.from_value]
  simp only [List.length_map, List.length_range, hlook2]
  have hmm : ((List.range wc).map (fun i =>
        wl.getD ((fromBytesBE e * 2 ^ cs + Mnemonic.checksum sha ⟨e⟩) /
          2 ^ ((wc - i - 1) * 11) % 2048) ""))
      = ((List.range wc).map (fun i =>
          (fromBytesBE e * 2 ^ cs + Mnemonic.checksum sha ⟨e⟩) /
            2 ^ ((wc - i - 1) * 11) % 2048)).map (fun j => wl.getD j "") := by
    rw [List.map_map]
    rfl
  have hidxlt : ∀ j ∈ ((List.range wc).map (fun i =>
        (fromBytesBE e * 2 ^ cs + Mnemonic.checksum sha ⟨e⟩) /
          2 ^ ((wc - i - 1) * 11) % 2048)), j < wl.length := by
    intro j hj
    rw [hwl]
    simp only [List.mem_map] at hj
    obtain ⟨i, _, hji⟩ := hj
    omega
  have hws : wordsSequence wl ((List.range wc).map (fun i =>
        wl.getD ((fromBytesBE e * 2 ^ cs + Mnemonic.checksum sha ⟨e⟩) /
          2 ^ ((wc - i - 1) * 11) % 2048) ""))
      = Except.ok (fromBytesBE e * 2 ^ cs + Mnemonic.checksum sha ⟨e⟩) := by
    rw [hmm]
    unfold wordsSequence
    rw [wordsSequence_eval wl hnd _ hidxlt 0]
    rw [foldl_shiftOr_eq_foldl_arith _ (fun j hj => by
      simp only [List.mem_map] at hj
      obtain ⟨i, _, hji⟩ := hj
      omega)]
    rw [digits_foldl]
    congr 1
    rw [Nat.zero_mul, Nat.zero_add]
    apply Nat.mod_eq_of_lt
    calc fromBytesBE e * 2 ^ cs + Mnemonic.checksum sha ⟨e⟩ < 2 ^ (11 * wc) := hseqlt
      _ = 2048 ^ wc := by
          rw [show (2048 : Nat) = 2 ^ 11 by norm_num, ← Nat.pow_mul]
  rw [hws]
  simp only [Except.bind]
  have hshr : (fromBytesBE e * 2 ^ cs + Mnemonic.checksum sha ⟨e⟩) >>> cs = fromBytesBE e := by
    rw [Nat.shiftRight_eq_div_pow, Nat.mul_comm (fromBytesBE e) (2 ^ cs),
      Nat.mul_add_div (Nat.two_pow_pos _), Nat.div_eq_of_lt hC]
    omega
  have hmask : (fromBytesBE e * 2 ^ cs + Mnemonic.checksum sha ⟨e⟩) &&& (2 ^ cs - 1)
      = Mnemonic.checksum sha ⟨e⟩ := by
    rw [Nat.and_pow_two_sub_one_eq_mod, Nat.mul_add_mod', Nat.mod_eq_of_lt hC]
  have hent : toBytesBE (8 * e.length / 8)
      ((fromBytesBE e * 2 ^ cs + Mnemonic.checksum sha ⟨e⟩) >>> cs) = e := by
    rw [hshr, show 8 * e.length / 8 = e.length by omega]
    exact toBytesBE_fromBytesBE e hwf
  simp only [hent, hmask]
  simp

theorem wlW_length : wlW.length = 2048 := by
  simp [wlW]

theorem wlW_nodup : wlW.Nodup := by
  refine List.Nodup.map ?_ (List.nodup_range 2048)
  intro a b hab
  have hd : List.replicate a 'a' = List.replicate b 'a' := congrArg String.data hab
  have hl := congrArg List.length hd
  simpa using hl

/-- C1: for every entropy whose bit length lies in {128, 160, 192, 224, 256},
`Mnemonic.value` followed by `Mnemonic.from_value` with `fix_checksum = false`
succeeds and returns a mnemonic whose entropy is the original entropy. -/
theorem claim_C1_round_trip (wl : List String) (sha : List Nat → List Nat)
    (e : List Nat) (hwl : wl.length = 2048) (hnd : wl.Nodup)
    (hsize : 8 * e.length ∈ ENTROPY_SIZE_RANGE)
    (hwf : ∀ b ∈ e, b < 256)
    (hsha : (sha e).headD 0 < 256) :
    Mnemonic.from_value wl sha (Mnemonic.value wl sha ⟨e⟩) false = Except.ok ⟨e⟩ := by
  have h5 : 8 * e.length = 128 ∨ 8 * e.length = 160 ∨ 8 * e.length = 192 ∨
      8 * e.length = 224 ∨ 8 * e.length = 256 := by
    simpa [ENTROPY_SIZE_RANGE] using hsize
  rcases h5 with h | h | h | h | h
  · exact from_value_value_core wl sha hwl hnd e 12 4 (by rw [h]; decide) (by rw [h]; decide)
      (by omega) (by omega) hwf hsha
  · exact from_value_value_core wl sha hwl hnd e 15 5 (by rw [h]; decide) (by rw [h]; decide)
      (by omega) (by omega) hwf hsha
  · exact from_value_value_core wl sha hwl hnd e 18 6 (by rw [h]; decide) (by rw [h]; decide)
      (by omega) (by omega) hwf hsha
  · exact from_value_value_core wl sha hwl hnd e 21 7 (by rw [h]; decide) (by rw [h]; decide)
      (by omega) (by omega) hwf hsha
  · exact from_value_value_core wl sha hwl hnd e 24 8 (by rw [h]; decide) (by rw [h]; decide)
      (by omega) (by omega) hwf hsha

/-- Witness for C1 at a concrete 128-bit entropy, wordlist and digest
function. -/
theorem claim_C1_round_trip_witness :
    Mnemonic.from_value wlW shaW (Mnemonic.value wlW shaW ⟨List.replicate 16 0⟩) false
      = Except.ok ⟨List.replicate 16 0⟩ :=
  claim_C1_round_trip wlW shaW (List.replicate 16 0) wlW_length wlW_nodup
    (by decide) (by decide) (by decide)

/-- For a byte below 256 and `k ≤ 8`, its top `k` bits fit in `k` bits. -/
theorem shift_top_lt (x k : Nat) (hx : x < 256) (hk : k ≤ 8) :
    x >>> (8 - k) < 2 ^ k := by
  rw [Nat.shiftRight_eq_div_pow, Nat.div_lt_iff_lt_mul (Nat.two_pow_pos _)]
  calc x < 256 := hx
    _ = 2 ^ (k + (8 - k)) := by rw [show k + (8 - k) = 8 by omega]; norm_num
    _ = 2 ^ k * 2 ^ (8 - k) := by rw [Nat.pow_add]

/-- The first-byte shortcut: for a nonempty well-formed byte digest and
`k ≤ 8`, the top `k` bits of the digest integer are the top `k` bits of its
first byte. -/
theorem specTopBits_headD (d : List Nat) (hw : ∀ b ∈ d, b < 256) (hne : d ≠ [])
    (k : Nat) (hk : k ≤ 8) :
    specTopBits d k = d.headD 0 >>> (8 - k) := by
  obtain ⟨b, rest, rfl⟩ := List.exists_cons_of_ne_nil hne
  have hrest : fromBytesBE rest < 2 ^ (8 * rest.length) := by
    calc fromBytesBE rest
        < 256 ^ rest.length := fromBytesBE_lt rest (fun x hx => hw x (List.mem_cons_of_mem _ hx))
      _ = 2 ^ (8 * rest.length) := by
          rw [show (256 : Nat) = 2 ^ 8 by norm_num, ← Nat.pow_mul]
  unfold specTopBits
  rw [fromBytesBE_cons]
  have hlen : 8 * (b :: rest).length - k = 8 * rest.length + (8 - k) := by
    simp only [List.length_cons]
    omega
  rw [hlen, Nat.shiftRight_eq_div_pow, Nat.shiftRight_eq_div_pow]
  rw [Nat.pow_add, ← Nat.div_div_eq_div_mul]
  congr 1
  rw [show (256 : Nat) ^ rest.length = 2 ^ (8 * rest.length) by
    rw [show (256 : Nat) = 2 ^ 8 by norm_num, ← Nat.pow_mul]]
  rw [Nat.mul_comm b _, Nat.mul_add_div (Nat.two_pow_pos _), Nat.div_eq_of_lt hrest]
  simp

/-- Core of the checksum law, for one row of the size tables. -/
theorem claim_C3_core (sha : List Nat → List Nat) (e : List Nat) (wc cs : Nat)
    (hlook : sizesForEntropy (8 * e.length) = some (wc, cs))
    (hcseq : cs = 8 * e.length / 32) (hk : cs ≤ 8)
    (hd32 : (sha e).length = 32)
    (hdwf : ∀ b ∈ sha e, b < 256) :
    Mnemonic.checksum sha ⟨e⟩ = specTopBits (sha e) (8 * e.length / 32)
      ∧ Mnemonic.checksum sha ⟨e⟩ < 2 ^ (8 * e.length / 32) := by
  have hne : sha e ≠ [] := by
    intro h0
    rw [h0] at hd32
    simp at hd32
  have hhead : (sha e).headD 0 < 256 := by
    obtain ⟨b, rest, hbr⟩ := List.exists_cons_of_ne_nil hne
    rw [hbr]
    apply hdwf
    rw [hbr]
    exact List.mem_cons_self _ _
  have hcs : Mnemonic.checksum sha ⟨e⟩ = (sha e).headD 0 >>> (8 - cs) := by
    simp [Mnemonic.checksum, hlook]
  constructor
  · rw [hcs, specTopBits_headD (sha e) hdwf hne (8 * e.length / 32) (hcseq ▸ hk), hcseq]
  · rw [hcs, hcseq]
    exact shift_top_lt _ _ hhead (hcseq ▸ hk)

/-- C3: for every valid entropy the computed checksum equals the top
`len(e)/32` bits of the SHA-256 digest read as a big-endian integer, and lies
in `[0, 2^(len(e)/32))`; in particular the first-digest-byte shortcut of the
code is correct for every allowed entropy size. -/
theorem claim_C3_checksum_law (sha : List Nat → List Nat) (e : List Nat)
    (hsize : 8 * e.length ∈ ENTROPY_SIZE_RANGE)
    (hd32 : (sha e).length = 32)
    (hdwf : ∀ b ∈ sha e, b < 256) :
    Mnemonic.checksum sha ⟨e⟩ = specTopBits (sha e) (8 * e.length / 32)
      ∧ Mnemonic.checksum sha ⟨e⟩ < 2 ^ (8 * e.length / 32) := by
  have h5 : 8 * e.length = 128 ∨ 8 * e.length = 160 ∨ 8 * e.length = 192 ∨
      8 * e.length = 224 ∨ 8 * e.length = 256 := by
    simpa [ENTROPY_SIZE_RANGE] using hsize
  rcases h5 with h | h | h | h | h
  · exact claim_C3_core sha e 12 4 (by rw [h]; decide) (by omega) (by omega) hd32 hdwf
  · exact claim_C3_core sha e 15 5 (by rw [h]; decide) (by omega) (by omega) hd32 hdwf
  · exact claim_C3_core sha e 18 6 (by rw [h]; decide) (by omega) (by omega) hd32 hdwf
  · exact claim_C3_core sha e 21 7 (by rw [h]; decide) (by omega) (by omega) hd32 hdwf
  · exact claim_C3_core sha e 24 8 (by rw [h]; decide) (by omega) (by omega) hd32 hdwf

/-- Witness for C3 at a concrete 128-bit entropy and digest function. -/
theorem claim_C3_checksum_law_witness :
    Mnemonic.checksum shaW ⟨List.replicate 16 0⟩
        = specTopBits (shaW (List.replicate 16 0)) (8 * (List.replicate 16 (0 : Nat)).length / 32)
      ∧ Mnemonic.checksum shaW ⟨List.replicate 16 0⟩
        < 2 ^ (8 * (List.replicate 16 (0 : Nat)).length / 32) :=
  claim_C3_checksum_law shaW (List.replicate 16 0) (by decide) (by decide) (by decide)

/-- Re-deriving a mnemonic from recovered entropy round-trips, stated over a
size-table row with the entropy produced by `toBytesBE`. -/
theorem rederive_round_trip (wl : List String) (sha : List Nat → List Nat)
    (hwl : wl.length = 2048) (hnd : wl.Nodup) (es cs wc v : Nat)
    (hlook : sizesForEntropy es = some (wc, cs))
    (hlook2 : sizesForWordCount wc = some (es, cs))
    (hwcs : es + cs = 11 * wc) (hcs8 : cs ≤ 8) (h8 : 8 * (es / 8) = es)
    (hsha2 : (sha (toBytesBE (es / 8) v)).headD 0 < 256) :
    Mnemonic.from_value wl sha (Mnemonic.value wl sha ⟨toBytesBE (es / 8) v⟩) false
      = Except.ok ⟨toBytesBE (es / 8) v⟩ :=
  from_value_value_core wl sha hwl hnd _ wc cs
    (by rw [toBytesBE_length, h8]; exact hlook)
    (by rw [toBytesBE_length, h8]; exact hlook2)
    (by rw [toBytesBE_length, h8]; omega)
    hcs8 (toBytesBE_mem_lt _ _) hsha2

/-- C4: a word sequence of valid length, made of dictionary words, whose
embedded checksum differs from the one recomputed from the recovered entropy:
with `fix_checksum = false`, `from_value` fails with the checksum error
carrying expected and obtained values as lowercase hex; with
`fix_checksum = true` it succeeds with the mnemonic re-derived from the
recovered entropy, and that mnemonic's word sequence carries a valid
checksum (parsing it back with `fix_checksum = false` succeeds). -/
theorem claim_C4_fix_checksum (wl : List String) (sha : List Nat → List Nat)
    (words : List String) (es cs s : Nat)
    (hwl : wl.length = 2048) (hnd : wl.Nodup)
    (hwc : sizesForWordCount words.length = some (es, cs))
    (hseq : wordsSequence wl words = Except.ok s)
    (hmis : s &&& (2 ^ cs - 1) ≠ Mnemonic.checksum sha ⟨toBytesBE (es / 8) (s >>> cs)⟩)
    (hsha2 : (sha (toBytesBE (es / 8) (s >>> cs))).headD 0 < 256) :
    Mnemonic.from_value wl sha words false
      = Except.error (MnemonicError.checksumMismatch
          (toHexString (Mnemonic.checksum sha ⟨toBytesBE (es / 8) (s >>> cs)⟩))
          (toHexString (s &&& (2 ^ cs - 1))))
    ∧ Mnemonic.from_value wl sha words true
      = Except.ok ⟨toBytesBE (es / 8) (s >>> cs)⟩
    ∧ Mnemonic.from_value wl sha
        (Mnemonic.value wl sha ⟨toBytesBE (es / 8) (s >>> cs)⟩) false
      = Except.ok ⟨toBytesBE (es / 8) (s >>> cs)⟩ := by
  refine ⟨?_, ?_, ?_⟩
  · rw [Mnemonic.from_value, hwc, hseq]
    simp only [Except.bind]
    rw [if_pos hmis]
    simp
  · rw [Mnemonic.from_value, hwc, hseq]
    simp only [Except.bind]
    rw [if_pos hmis]
    simp
  · unfold sizesForWordCount at hwc
    split at hwc
    · simp only [Option.some.injEq, Prod.mk.injEq] at hwc
      obtain ⟨rfl, rfl⟩ := hwc
      exact rederive_round_trip wl sha hwl hnd 128 4 12 _ (by decide) (by decide)
        (by omega) (by omega) (by decide) hsha2
    · simp only [Option.some.injEq, Prod.mk.injEq] at hwc
      obtain ⟨rfl, rfl⟩ := hwc
      exact rederive_round_trip wl sha hwl hnd 160 5 15 _ (by decide) (by decide)
        (by omega) (by omega) (by decide) hsha2
    · simp only [Option.some.injEq, Prod.mk.injEq] at hwc
      obtain ⟨rfl, rfl⟩ := hwc
      exact rederive_round_trip wl sha hwl hnd 192 6 18 _ (by decide) (by decide)
        (by omega) (by omega) (by decide) hsha2
    · simp only [Option.some.injEq, Prod.mk.injEq] at hwc
      obtain ⟨rfl, rfl⟩ := hwc
      exact rederive_round_trip wl sha hwl hnd 224 7 21 _ (by decide) (by decide)
        (by omega) (by omega) (by decide) hsha2
    · simp only [Option.some.injEq, Prod.mk.injEq] at hwc
      obtain ⟨rfl, rfl⟩ := hwc
      exact rederive_round_trip wl sha hwl hnd 256 8 24 _ (by decide) (by decide)
        (by omega) (by omega) (by decide) hsha2
    · exact absurd hwc (by simp)

set_option maxRecDepth 8192 in
/-- Witness for C4: twelve copies of the first dictionary word embed checksum
0 while the recomputed checksum is 8, so `fix_checksum = false` reports the
mismatch in hex and `fix_checksum = true` silently re-derives. -/
theorem claim_C4_fix_checksum_witness :
    Mnemonic.from_value wlW shaW (List.replicate 12 "") false
      = Except.error (MnemonicError.checksumMismatch
          (toHexString (Mnemonic.checksum shaW ⟨toBytesBE (128 / 8) ((0 : Nat) >>> 4)⟩))
          (toHexString ((0 : Nat) &&& (2 ^ 4 - 1))))
    ∧ Mnemonic.from_value wlW shaW (List.replicate 12 "") true
      = Except.ok ⟨toBytesBE (128 / 8) ((0 : Nat) >>> 4)⟩
    ∧ Mnemonic.from_value wlW shaW
        (Mnemonic.value wlW shaW ⟨toBytesBE (128 / 8) ((0 : Nat) >>> 4)⟩) false
      = Except.ok ⟨toBytesBE (128 / 8) ((0 : Nat) >>> 4)⟩ :=
  claim_C4_fix_checksum wlW shaW (List.replicate 12 "") 128 4 0 wlW_length wlW_nodup
    (by decide) (by rfl) (by decide) (by decide)

theorem natToBits_length (s : Nat) : ∀ v : Nat, (natToBits s v).length = s := by
  induction s with
  | zero => intro v; simp [natToBits]
  | succ k ih => intro v; simp [natToBits, ih]

theorem bitsToNat_cons (b : Bool) (t : List Bool) :
    bitsToNat (b :: t) = 2 * bitsToNat t + (if b then 1 else 0) := by
  simp [bitsToNat]

theorem bitsToNat_lt (l : List Bool) : bitsToNat l < 2 ^ l.length := by
  induction l with
  | nil => simp [bitsToNat]
  | cons b t ih =>
    rw [bitsToNat_cons]
    have : (2 : Nat) ^ (b :: t).length = 2 * 2 ^ t.length := by
      simp [List.length_cons]
      ring
    rw [this]
    cases b <;> simp <;> omega

theorem natToBits_bitsToNat (l : List Bool) :
    natToBits l.length (bitsToNat l) = l := by
  induction l with
  | nil => simp [natToBits, bitsToNat]
  | cons b t ih =>
    rw [bitsToNat_cons, List.length_cons, natToBits]
    have h2 : (2 * bitsToNat t + (if b then 1 else 0)) % 2 = (if b then 1 else 0) := by
      cases b <;> simp <;> omega
    have h3 : (2 * bitsToNat t + (if b then 1 else 0)) / 2 = bitsToNat t := by
      cases b <;> simp <;> omega
    rw [h2, h3, ih]
    cases b <;> simp

theorem bitsToNat_natToBits (s : Nat) : ∀ v : Nat, v < 2 ^ s →
    bitsToNat (natToBits s v) = v := by
  induction s with
  | zero => intro v hv; interval_cases v; simp [natToBits, bitsToNat]
  | succ k ih =>
    intro v hv
    rw [natToBits, bitsToNat_cons]
    have hdiv : v / 2 < 2 ^ k := by
      rw [Nat.div_lt_iff_lt_mul (by omega)]
      calc v < 2 ^ (k + 1) := hv
        _ = 2 ^ k * 2 := by ring
    rw [ih _ hdiv]
    rcases Nat.mod_two_eq_zero_or_one v with h | h <;> simp [h] <;> omega

theorem mirrorBits_lt (s v : Nat) : mirrorBits s v < 2 ^ s := by
  unfold mirrorBits
  have h := bitsToNat_lt (natToBits s v).reverse
  rwa [List.length_reverse, natToBits_length] at h

theorem mirrorBits_mirrorBits (s v : Nat) (h : v < 2 ^ s) :
    mirrorBits s (mirrorBits s v) = v := by
  unfold mirrorBits
  have h1 : natToBits s (bitsToNat (natToBits s v).reverse) = (natToBits s v).reverse := by
    have h2 := natToBits_bitsToNat (natToBits s v).reverse
    rwa [List.length_reverse, natToBits_length] at h2
  rw [h1, List.reverse_reverse, bitsToNat_natToBits s v h]

theorem Transformation_apply_length (t : Transformation) (b : List Nat) :
    (t.apply b).length = b.length := by
  cases t <;> simp [Transformation.apply, toBytesBE_length]

theorem Transformation_apply_mem_lt (t : Transformation) (b : List Nat) :
    ∀ x ∈ t.apply b, x < 256 := by
  cases t <;> simp only [Transformation.apply] <;> exact toBytesBE_mem_lt _ _

/-- Both transformations are involutive on well-formed byte buffers. -/
theorem Transformation_apply_apply (t : Transformation) (b : List Nat)
    (h : ∀ x ∈ b, x < 256) : t.apply (t.apply b) = b := by
  have hlt : fromBytesBE b < 2 ^ (8 * b.length) := by
    calc fromBytesBE b < 256 ^ b.length := fromBytesBE_lt b h
      _ = 2 ^ (8 * b.length) := by
          rw [show (256 : Nat) = 2 ^ 8 by norm_num, ← Nat.pow_mul]
  have h256 : (256 : Nat) ^ b.length = 2 ^ (8 * b.length) := by
    rw [show (256 : Nat) = 2 ^ 8 by norm_num, ← Nat.pow_mul]
  cases t with
  | negative =>
    simp only [Transformation.apply, toBytesBE_length]
    rw [fromBytesBE_toBytesBE b.length _ (by rw [h256]; omega)]
    rw [show 2 ^ (8 * b.length) - (2 ^ (8 * b.length) - fromBytesBE b - 1) - 1
        = fromBytesBE b by omega]
    exact toBytesBE_fromBytesBE b h
  | mirror =>
    simp only [Transformation.apply, toBytesBE_length]
    rw [fromBytesBE_toBytesBE b.length _ (by rw [h256]; exact mirrorBits_lt _ _)]
    rw [mirrorBits_mirrorBits _ _ hlt]
    exact toBytesBE_fromBytesBE b h

/-- C5: applying Negative twice or Mirror twice returns the byte buffer
unchanged, and both transformations preserve its length. -/
theorem claim_C5_transform_involution (t : Transformation) (b : List Nat)
    (h : ∀ x ∈ b, x < 256) :
    t.apply (t.apply b) = b ∧ (t.apply b).length = b.length :=
  ⟨Transformation_apply_apply t b h, Transformation_apply_length t b⟩

/-- Witness for C5 on a concrete two-byte buffer. -/
theorem claim_C5_transform_involution_witness :
    Transformation.mirror.apply (Transformation.mirror.apply [170, 85]) = [170, 85]
      ∧ (Transformation.mirror.apply [170, 85]).length = ([170, 85] : List Nat).length :=
  claim_C5_transform_involution Transformation.mirror [170, 85] (by decide)

/-- C6: splitting a 24-word mnemonic (transform, then halve into two 12-word
mnemonics) and joining the halves with the same transformation (concatenate
first-then-second, transform) restores the original mnemonic. -/
theorem claim_C6_split_join (m : Mnemonic) (t : Transformation)
    (hlen : m.entropy.length = 32) (hwf : ∀ b ∈ m.entropy, b < 256) :
    joinMnemonics (splitMnemonic m t).1 (splitMnemonic m t).2 t = m := by
  unfold joinMnemonics splitMnemonic Mnemonic.transform
  simp only [List.take_append_drop]
  exact congrArg Mnemonic.mk (Transformation_apply_apply t m.entropy hwf)

/-- Witness for C6 on a concrete 256-bit mnemonic and the negative
transformation. -/
theorem claim_C6_split_join_witness :
    joinMnemonics (splitMnemonic ⟨List.replicate 32 7⟩ Transformation.negative).1
        (splitMnemonic ⟨List.replicate 32 7⟩ Transformation.negative).2
        Transformation.negative
      = ⟨List.replicate 32 7⟩ :=
  claim_C6_split_join ⟨List.replicate 32 7⟩ Transformation.negative (by decide) (by decide)

theorem coord_pack_mod (W x y : Nat) (hx : x < W) : (y * W + x) % W = x := by
  rw [Nat.mul_comm y W, Nat.mul_add_mod]
  exact Nat.mod_eq_of_lt hx

theorem coord_pack_div (W x y : Nat) (hx : x < W) : (y * W + x) / W = y := by
  rw [Nat.mul_comm y W, Nat.mul_add_div (by omega), Nat.div_eq_of_lt hx]
  omega

theorem coord_pack_lt (W H x y : Nat) (hx : x < W) (hy : y < H) : y * W + x < W * H := by
  calc y * W + x < y * W + W := by omega
    _ = (y + 1) * W := by ring
    _ ≤ H * W := Nat.mul_le_mul_right W (by omega)
    _ = W * H := Nat.mul_comm H W

theorem coord_unpack (W idx : Nat) (hW : 1 ≤ W) : (idx / W) * W + idx % W = idx := by
  rw [Nat.mul_comm (idx / W) W]
  exact Nat.div_add_mod idx W

theorem coord_div_lt (W H idx : Nat) (hW : 1 ≤ W) (hidx : idx < W * H) : idx / W < H := by
  rw [Nat.div_lt_iff_lt_mul (by omega)]
  calc idx < W * H := hidx
    _ = H * W := Nat.mul_comm W H

/-- The vertical index formula is the transpose map `qH + r to rW + q`. -/
theorem getPixelIndex_vertical (W H : Nat) (hH : 1 ≤ H) (o : Nat) (ho : o < W * H) :
    getPixelIndex W H Direction.vertical o = (o % H) * W + o / H := by
  have hq : o / H < W := coord_div_lt H W o hH (by rw [Nat.mul_comm]; exact ho)
  have hr : o % H < H := Nat.mod_lt _ (by omega)
  have hdecomp : H * (o / H) + o % H = o := Nat.div_add_mod o H
  have key : o * W + o / H = (W * H) * (o / H) + ((o % H) * W + o / H) := by
    calc o * W + o / H = (H * (o / H) + o % H) * W + o / H := by rw [hdecomp]
      _ = (W * H) * (o / H) + ((o % H) * W + o / H) := by ring
  show (o * W + o / H) % (W * H) = (o % H) * W + o / H
  rw [key, Nat.mul_add_mod]
  exact Nat.mod_eq_of_lt (coord_pack_lt W H (o / H) (o % H) hq hr)

theorem getPixelIndex_reverseVertical (W H o : Nat) :
    getPixelIndex W H Direction.reverseVertical o
      = getPixelIndex W H Direction.vertical (W * H - o - 1) := rfl

theorem getPixelIndex_reverseHorizontal (W H o : Nat) (ho : o < W * H) :
    getPixelIndex W H Direction.reverseHorizontal o = W * H - o - 1 := by
  show (W * H - o - 1) % (W * H) = W * H - o - 1
  exact Nat.mod_eq_of_lt (by omega)

theorem getPixelIndex_lt (W H : Nat) (d : Direction) (o : Nat) (hW : 1 ≤ W)
    (hH : 1 ≤ H) (ho : o < W * H) : getPixelIndex W H d o < W * H := by
  have hS : 0 < W * H := by positivity
  cases d with
  | horizontal => exact ho
  | vertical => exact Nat.mod_lt _ hS
  | reverseHorizontal => exact Nat.mod_lt _ hS
  | reverseVertical => exact Nat.mod_lt _ hS

/-- The transpose of a packed index, applied twice, is the identity. -/
theorem transpose_transpose (W H idx : Nat) (hW : 1 ≤ W) (hH : 1 ≤ H)
    (hidx : idx < W * H) :
    (((idx % W) * H + idx / W) % H) * W + ((idx % W) * H + idx / W) / H = idx := by
  have hx : idx % W < W := Nat.mod_lt _ (by omega)
  have hy : idx / W < H := coord_div_lt W H idx hW hidx
  rw [coord_pack_mod H (idx / W) (idx % W) hy, coord_pack_div H (idx / W) (idx % W) hy]
  exact coord_unpack W idx hW

theorem transpose_lt (W H idx : Nat) (hW : 1 ≤ W) (hH : 1 ≤ H) (hidx : idx < W * H) :
    (idx % W) * H + idx / W < W * H := by
  have hx : idx % W < W := Nat.mod_lt _ (by omega)
  have hy : idx / W < H := coord_div_lt W H idx hW hidx
  rw [Nat.mul_comm W H]
  exact coord_pack_lt H W (idx / W) (idx % W) hy hx

theorem sub_one_sub_lt (S T : Nat) (hS : 1 ≤ S) : S - 1 - T < S := by omega

theorem sub_sub_one_cancel (S T : Nat) (hT : T < S) : S - (S - 1 - T) - 1 = T := by omega

/-- The traversal of each direction, from pixel ordinals through the index
formula to coordinates, is a bijection between the ordinals `[0, W*H)` and
the pixel grid `[0, W) x [0, H)`. -/
theorem coordOfOrdinal_bijOn (W H : Nat) (hW : 1 ≤ W) (hH : 1 ≤ H) (d : Direction) :
    Set.BijOn (coordOfOrdinal W H d) (Set.Iio (W * H)) (Set.Iio W ×ˢ Set.Iio H) := by
  have hS : 1 ≤ W * H := Nat.mul_pos (by omega) (by omega)
  have hco : ∀ (dd : Direction) (o : Nat), coordOfOrdinal W H dd o
      = (getPixelIndex W H dd o % W, getPixelIndex W H dd o / W) := fun _ _ => rfl
  have h2h : ∀ x y : Nat, ordOfCoord W H Direction.horizontal (x, y)
      = y * W + x := fun _ _ => rfl
  have h2v : ∀ x y : Nat, ordOfCoord W H Direction.vertical (x, y)
      = ((y * W + x) % W) * H + (y * W + x) / W := fun _ _ => rfl
  have h2r : ∀ x y : Nat, ordOfCoord W H Direction.reverseHorizontal (x, y)
      = W * H - 1 - (y * W + x) := fun _ _ => rfl
  have h2rv : ∀ x y : Nat, ordOfCoord W H Direction.reverseVertical (x, y)
      = W * H - 1 - (((y * W + x) % W) * H + (y * W + x) / W) := fun _ _ => rfl
  have hmf : Set.MapsTo (coordOfOrdinal W H d) (Set.Iio (W * H))
      (Set.Iio W ×ˢ Set.Iio H) := by
    intro o ho
    simp only [Set.mem_Iio] at ho
    have hidx := getPixelIndex_lt W H d o hW hH ho
    rw [hco d o]
    simp only [Set.mem_prod, Set.mem_Iio]
    exact ⟨Nat.mod_lt _ (by omega), coord_div_lt W H _ hW hidx⟩
  have hmg : Set.MapsTo (ordOfCoord W H d) (Set.Iio W ×ˢ Set.Iio H)
      (Set.Iio (W * H)) := by
    rintro ⟨x, y⟩ hxy
    simp only [Set.mem_prod, Set.mem_Iio] at hxy
    obtain ⟨hx, hy⟩ := hxy
    have hpack : y * W + x < W * H := coord_pack_lt W H x y hx hy
    have hT : ((y * W + x) % W) * H + (y * W + x) / W < W * H :=
      transpose_lt W H (y * W + x) hW hH hpack
    simp only [Set.mem_Iio]
    cases d with
    | horizontal => rw [h2h x y]; exact hpack
    | vertical => rw [h2v x y]; exact hT
    | reverseHorizontal => rw [h2r x y]; exact sub_one_sub_lt _ _ hS
    | reverseVertical => rw [h2rv x y]; exact sub_one_sub_lt _ _ hS
  have hleft : Set.LeftInvOn (ordOfCoord W H d) (coordOfOrdinal W H d)
      (Set.Iio (W * H)) := by
    intro o ho
    simp only [Set.mem_Iio] at ho
    rw [hco d o]
    cases d with
    | horizontal =>
      rw [h2h, coord_unpack W _ hW]
      rfl
    | vertical =>
      rw [h2v, coord_unpack W _ hW, getPixelIndex_vertical W H hH o ho]
      have hq : o / H < W := coord_div_lt H W o hH (by rw [Nat.mul_comm H W]; exact ho)
      rw [coord_pack_mod W (o / H) (o % H) hq, coord_pack_div W (o / H) (o % H) hq]
      exact coord_unpack H o hH
    | reverseHorizontal =>
      rw [h2r, coord_unpack W _ hW, getPixelIndex_reverseHorizontal W H o ho]
      omega
    | reverseVertical =>
      rw [h2rv, coord_unpack W _ hW, getPixelIndex_reverseVertical]
      have ho2 : W * H - o - 1 < W * H := by omega
      rw [getPixelIndex_vertical W H hH _ ho2]
      have hq : (W * H - o - 1) / H < W :=
        coord_div_lt H W _ hH (by rw [Nat.mul_comm H W]; exact ho2)
      rw [coord_pack_mod W _ _ hq, coord_pack_div W _ _ hq]
      rw [coord_unpack H (W * H - o - 1) hH]
      omega
  have hright : Set.RightInvOn (ordOfCoord W H d) (coordOfOrdinal W H d)
      (Set.Iio W ×ˢ Set.Iio H) := by
    rintro ⟨x, y⟩ hxy
    simp only [Set.mem_prod, Set.mem_Iio] at hxy
    obtain ⟨hx, hy⟩ := hxy
    have hpack : y * W + x < W * H := coord_pack_lt W H x y hx hy
    have hT : ((y * W + x) % W) * H + (y * W + x) / W < W * H :=
      transpose_lt W H (y * W + x) hW hH hpack
    cases d with
    | horizontal =>
      rw [h2h x y, hco]
      have hgi : getPixelIndex W H Direction.horizontal (y * W + x) = y * W + x := rfl
      rw [hgi, coord_pack_mod W x y hx, coord_pack_div W x y hx]
    | vertical =>
      rw [h2v x y, hco, getPixelIndex_vertical W H hH _ hT]
      rw [transpose_transpose W H (y * W + x) hW hH hpack]
      rw [coord_pack_mod W x y hx, coord_pack_div W x y hx]
    | reverseHorizontal =>
      rw [h2r x y, hco]
      rw [getPixelIndex_reverseHorizontal W H _ (by omega)]
      rw [show W * H - (W * H - 1 - (y * W + x)) - 1 = y * W + x by omega]
      rw [coord_pack_mod W x y hx, coord_pack_div W x y hx]
    | reverseVertical =>
      rw [h2rv x y, hco, getPixelIndex_reverseVertical]
      rw [sub_sub_one_cancel (W * H) (((y * W + x) % W) * H + (y * W + x) / W) hT]
      rw [getPixelIndex_vertical W H hH _ hT]
      rw [transpose_transpose W H (y * W + x) hW hH hpack]
      rw [coord_pack_mod W x y hx, coord_pack_div W x y hx]
  exact Set.InvOn.bijOn ⟨hleft, hright⟩ hmf hmg

/-- C7: for every image with `W, H` at least 1 and each direction, the map
from pixel ordinals through the index formula to `(x, y) = (idx mod W,
idx div W)` is a bijection from `[0, W*H)` onto the pixels
`[0, W) x [0, H)`. -/
theorem claim_C7_direction_bijection (W H : Nat) (hW : 1 ≤ W) (hH : 1 ≤ H)
    (d : Direction) :
    Set.BijOn (coordOfOrdinal W H d) (Set.Iio (W * H)) (Set.Iio W ×ˢ Set.Iio H) :=
  coordOfOrdinal_bijOn W H hW hH d

/-- Witness for C7 on a concrete 2 by 3 image and the vertical direction. -/
theorem claim_C7_direction_bijection_witness :
    Set.BijOn (coordOfOrdinal 2 3 Direction.vertical) (Set.Iio (2 * 3))
      (Set.Iio 2 ×ˢ Set.Iio 3) :=
  claim_C7_direction_bijection 2 3 (by decide) (by decide) Direction.vertical

/-- The nested generator loop of `__get_modified_pixels`, flattened: entry
`t` of the yielded list comes from payload byte `t / 3` and inner pixel
`t % 3`. -/
theorem enum_flatMap_range3 {α β : Type} (F : Nat → α → Nat → β) (dd : α)
    (msg : List α) : ∀ n : Nat,
    (msg.enumFrom n).flatMap (fun iv => (List.range 3).map (fun j => F iv.1 iv.2 j))
      = (List.range (3 * msg.length)).map
          (fun t => F (n + t / 3) (msg.getD (t / 3) dd) (t % 3)) := by
  induction msg with
  | nil => intro n; simp
  | cons v rest ih =>
    intro n
    rw [List.enumFrom_cons, List.flatMap_cons, ih (n + 1)]
    have h3 : 3 * (v :: rest).length = 3 + 3 * rest.length := by
      simp [List.length_cons]
      ring
    rw [h3, List.range_add, List.map_append, List.map_map]
    congr 1
    apply List.map_congr_left
    intro t ht
    simp only [Function.comp_apply]
    have e1 : (3 + t) / 3 = t / 3 + 1 := by omega
    have e2 : (3 + t) % 3 = t % 3 := by omega
    rw [e1, e2, List.getD_cons_succ]
    rw [show n + (t / 3 + 1) = n + 1 + t / 3 by omega]

/-- When the payload fits, `__get_modified_pixels` succeeds and yields, in
order, one modified pixel per traversal ordinal `o < 3 * L`. -/
theorem getModifiedPixels_ok (img : Image) (msg : List Nat) (d : Direction)
    (hfit : 3 * msg.length ≤ img.sizePx) :
    getModifiedPixels img msg d = Except.ok ((List.range (3 * msg.length)).map
      (fun o => ((img.getPixel d o).1,
        modPixel (img.getPixel d o).2 (msg.getD (o / 3) 0) o
          (decide (o / 3 < msg.length - 1))))) := by
  unfold getModifiedPixels
  rw [if_neg (by omega)]
  congr 1
  have h := enum_flatMap_range3
    (fun i v j => ((img.getPixel d (3 * i + j)).1,
      modPixel (img.getPixel d (3 * i + j)).2 v (3 * i + j)
        (decide (i < msg.length - 1)))) 0 msg 0
  rw [show msg.enum = msg.enumFrom 0 from rfl]
  rw [h]
  apply List.map_congr_left
  intro t ht
  simp only [Nat.zero_add]
  rw [show 3 * (t / 3) + t % 3 = t from Nat.div_add_mod t 3]

/-- C8: encoding raises the payload-too-large error exactly when
`3 * L > width * height`; when the payload fits, encoding succeeds and the
modified pixels are exactly the first `3 * L` pixels in traversal order. -/
theorem claim_C8_capacity (img : Image) (msg : List Nat) (d : Direction) :
    (img.sizePx < 3 * msg.length ↔ encode img msg d = Except.error StegoError.invalidSize)
    ∧ (3 * msg.length ≤ img.sizePx →
        ∃ mods, getModifiedPixels img msg d = Except.ok mods
          ∧ encode img msg d
            = Except.ok (mods.foldl (fun im cp => im.putpixel cp.1 cp.2) img)
          ∧ mods.map Prod.fst
            = (List.range (3 * msg.length)).map (coordOfOrdinal img.width img.height d)) := by
  constructor
  · constructor
    · intro h
      unfold encode getModifiedPixels
      rw [if_pos (by omega)]
      rfl
    · intro h
      by_contra hlt
      rw [show encode img msg d = (getModifiedPixels img msg d).map
        (fun mods => mods.foldl (fun im cp => im.putpixel cp.1 cp.2) img) from rfl] at h
      rw [getModifiedPixels_ok img msg d (by omega)] at h
      simp [Except.map] at h
  · intro hfit
    refine ⟨_, getModifiedPixels_ok img msg d hfit, ?_, ?_⟩
    · rw [show encode img msg d = (getModifiedPixels img msg d).map
        (fun mods => mods.foldl (fun im cp => im.putpixel cp.1 cp.2) img) from rfl]
      rw [getModifiedPixels_ok img msg d hfit]
      rfl
    · rw [List.map_map]
      apply List.map_congr_left
      intro o ho
      rfl

/-- Witness for C8 on a 2 by 2 image and a one-byte payload. -/
theorem claim_C8_capacity_witness :
    (imgSpare.sizePx < 3 * ([5] : List Nat).length
        ↔ encode imgSpare [5] Direction.horizontal = Except.error StegoError.invalidSize)
    ∧ (3 * ([5] : List Nat).length ≤ imgSpare.sizePx →
        ∃ mods, getModifiedPixels imgSpare [5] Direction.horizontal = Except.ok mods
          ∧ encode imgSpare [5] Direction.horizontal
            = Except.ok (mods.foldl (fun im cp => im.putpixel cp.1 cp.2) imgSpare)
          ∧ mods.map Prod.fst
            = (List.range (3 * ([5] : List Nat).length)).map
                (coordOfOrdinal imgSpare.width imgSpare.height Direction.horizontal)) :=
  claim_C8_capacity imgSpare [5] Direction.horizontal

/-- A decode step leaves the stop flag untouched when every reachable 9th
slot carries a 1 bit. -/
theorem decodeStep_keeps_goon (img : Image) (d : Direction) (i : Nat)
    (hflag : i % 3 = 2 → channel (img.getPixel d i).2 2 &&& 1 ≠ 0)
    (st : Nat × Nat × Bool) (hg : st.2.2 = true) :
    ((decodeStep img d st i).2).2 = true := by
  obtain ⟨m, sz, g⟩ := st
  simp only at hg
  subst hg
  have h3 : i % 3 = 0 ∨ i % 3 = 1 ∨ i % 3 = 2 := by omega
  rcases h3 with h3 | h3 | h3
  · simp [decodeStep, decodeChannelStep, h3, List.foldl_cons, List.foldl_nil]
  · simp [decodeStep, decodeChannelStep, h3, List.foldl_cons, List.foldl_nil]
  · have hf : channel (img.getPixel d i).2 2 % 2 = 1 := by
      have hz := hflag h3
      rw [Nat.and_one_is_mod] at hz
      omega
    simp [decodeStep, decodeChannelStep, h3, List.foldl_cons, List.foldl_nil, hf]

/-- C9: if the traversal never yields a continuation-flag bit equal to 0 at
a 9th slot among the pixels the loop can reach, decode raises nothing and
returns the empty no-message sentinel (Python returns the integer `0`). -/
theorem claim_C9_no_message (img : Image) (d : Direction)
    (h : ∀ i, i < img.sizePx - 1 → i % 3 = 2 →
      channel (img.getPixel d i).2 2 &&& 1 ≠ 0) :
    decode img d = none := by
  have hfold : ∀ (l : List Nat), (∀ i ∈ l, i < img.sizePx - 1) →
      ∀ st : Nat × Nat × Bool, st.2.2 = true →
      ((l.foldl (decodeStep img d) st).2).2 = true := by
    intro l
    induction l with
    | nil => intro _ st hst; simpa using hst
    | cons i t ih =>
      intro hmem st hst
      simp only [List.foldl_cons]
      exact ih (fun j hj => hmem j (List.mem_cons_of_mem _ hj)) _
        (decodeStep_keeps_goon img d i (h i (hmem i (List.mem_cons_self _ _))) st hst)
  unfold decode
  rw [if_pos]
  exact hfold (List.range (img.sizePx - 1))
    (fun i hi => List.mem_range.mp hi) (0, 0, true) rfl

/-- Witness for C9 on a 2 by 2 image with all channels odd. -/
theorem claim_C9_no_message_witness :
    decode imgOnes Direction.horizontal = none :=
  claim_C9_no_message imgOnes Direction.horizontal (by decide)

theorem putpixel_getpixel_same (img : Image) (c : Nat × Nat) (p : Pixel) :
    (img.putpixel c p).getpixel c = p := by
  simp [Image.putpixel]

theorem putpixel_getpixel_other (img : Image) (c cc : Nat × Nat) (p : Pixel)
    (h : cc ≠ c) : (img.putpixel c p).getpixel cc = img.getpixel cc := by
  simp [Image.putpixel, h]

theorem foldl_putpixel_width (mods : List ((Nat × Nat) × Pixel)) : ∀ img : Image,
    (mods.foldl (fun im cp => im.putpixel cp.1 cp.2) img).width = img.width := by
  induction mods with
  | nil => intro img; rfl
  | cons cp t ih => intro img; rw [List.foldl_cons, ih]; rfl

theorem foldl_putpixel_height (mods : List ((Nat × Nat) × Pixel)) : ∀ img : Image,
    (mods.foldl (fun im cp => im.putpixel cp.1 cp.2) img).height = img.height := by
  induction mods with
  | nil => intro img; rfl
  | cons cp t ih => intro img; rw [List.foldl_cons, ih]; rfl

/-- A coordinate no write targets keeps its original pixel. -/
theorem foldl_putpixel_not_mem (mods : List ((Nat × Nat) × Pixel)) : ∀ (img : Image)
    (c : Nat × Nat), (∀ cp ∈ mods, cp.1 ≠ c) →
    (mods.foldl (fun im cp => im.putpixel cp.1 cp.2) img).getpixel c = img.getpixel c := by
  induction mods with
  | nil => intro img c _; rfl
  | cons cp t ih =>
    intro img c h
    rw [List.foldl_cons, ih _ c (fun x hx => h x (List.mem_cons_of_mem _ hx))]
    exact putpixel_getpixel_other img cp.1 c cp.2 (Ne.symm (h cp (List.mem_cons_self _ _)))

/-- With pairwise distinct coordinates, each written coordinate ends holding
its written pixel. -/
theorem foldl_putpixel_mem (mods : List ((Nat × Nat) × Pixel)) : ∀ (img : Image)
    (c : Nat × Nat) (p : Pixel), (mods.map Prod.fst).Nodup → (c, p) ∈ mods →
    (mods.foldl (fun im cp => im.putpixel cp.1 cp.2) img).getpixel c = p := by
  induction mods with
  | nil => intro img c p _ h; simp at h
  | cons cp t ih =>
    intro img c p hnd hmem
    rw [List.map_cons, List.nodup_cons] at hnd
    obtain ⟨hnotin, hndt⟩ := hnd
    rw [List.foldl_cons]
    rcases List.mem_cons.mp hmem with heq | hmem2
    · subst heq
      rw [foldl_putpixel_not_mem t _ c (fun x hx hx1 => hnotin (by
        have hm : x.1 ∈ List.map Prod.fst t := List.mem_map_of_mem Prod.fst hx
        rw [hx1] at hm
        exact hm))]
      exact putpixel_getpixel_same img c p
    · exact ih _ c p hndt hmem2

/-- The first `n` traversal coordinates are pairwise distinct. -/
theorem coords_nodup (W H : Nat) (hW : 1 ≤ W) (hH : 1 ≤ H) (d : Direction)
    (n : Nat) (hn : n ≤ W * H) :
    ((List.range n).map (coordOfOrdinal W H d)).Nodup := by
  refine List.Nodup.map_on ?_ (List.nodup_range n)
  intro a ha b hb hab
  have hinj := (coordOfOrdinal_bijOn W H hW hH d).injOn
  exact hinj (Set.mem_Iio.mpr (by have := List.mem_range.mp ha; omega))
    (Set.mem_Iio.mpr (by have := List.mem_range.mp hb; omega)) hab

/-- Characterization of the encoded image: dimensions are unchanged, every
traversal ordinal below `3 * L` holds its modified pixel, and every later
ordinal keeps its original pixel. -/
theorem encode_getpixel (img : Image) (msg : List Nat) (d : Direction) (img2 : Image)
    (hfit : 3 * msg.length ≤ img.sizePx)
    (henc : encode img msg d = Except.ok img2) :
    img2.width = img.width ∧ img2.height = img.height
    ∧ (∀ o, o < 3 * msg.length →
        img2.getpixel (coordOfOrdinal img.width img.height d o)
          = modPixel (img.getpixel (coordOfOrdinal img.width img.height d o))
              (msg.getD (o / 3) 0) o (decide (o / 3 < msg.length - 1)))
    ∧ (∀ o, 3 * msg.length ≤ o → o < img.sizePx →
        img2.getpixel (coordOfOrdinal img.width img.height d o)
          = img.getpixel (coordOfOrdinal img.width img.height d o)) := by
  rw [show encode img msg d = (getModifiedPixels img msg d).map
      (fun mods => mods.foldl (fun im cp => im.putpixel cp.1 cp.2) img) from rfl,
    getModifiedPixels_ok img msg d hfit] at henc
  simp only [Except.map, Except.ok.injEq] at henc
  subst henc
  refine ⟨foldl_putpixel_width _ img, foldl_putpixel_height _ img, ?_, ?_⟩
  · intro o ho
    have hL1 : 1 ≤ msg.length := by omega
    have hS : 0 < img.sizePx := by omega
    have hW : 1 ≤ img.width := by
      rcases Nat.eq_zero_or_pos img.width with h0 | h1
      · exfalso
        rw [Image.sizePx, h0, Nat.zero_mul] at hS
        omega
      · exact h1
    have hH : 1 ≤ img.height := by
      rcases Nat.eq_zero_or_pos img.height with h0 | h1
      · exfalso
        rw [Image.sizePx, h0, Nat.mul_zero] at hS
        omega
      · exact h1
    apply foldl_putpixel_mem
    · rw [List.map_map]
      rw [show ((fun cp => cp.1) ∘ (fun o => ((img.getPixel d o).1,
          modPixel (img.getPixel d o).2 (msg.getD (o / 3) 0) o
            (decide (o / 3 < msg.length - 1)))))
          = coordOfOrdinal img.width img.height d from rfl]
      exact coords_nodup img.width img.height hW hH d (3 * msg.length) hfit
    · refine List.mem_map.mpr ⟨o, List.mem_range.mpr ho, rfl⟩
  · intro o h3L ho
    apply foldl_putpixel_not_mem
    intro cp hcp
    obtain ⟨o2, ho2, rfl⟩ := List.mem_map.mp hcp
    have ho2r := List.mem_range.mp ho2
    intro heq
    have hL1 : 1 ≤ msg.length := by omega
    have hS : 0 < img.sizePx := by omega
    have hW : 1 ≤ img.width := by
      rcases Nat.eq_zero_or_pos img.width with h0 | h1
      · exfalso
        rw [Image.sizePx, h0, Nat.zero_mul] at hS
        omega
      · exact h1
    have hH : 1 ≤ img.height := by
      rcases Nat.eq_zero_or_pos img.height with h0 | h1
      · exfalso
        rw [Image.sizePx, h0, Nat.mul_zero] at hS
        omega
      · exact h1
    have hinj := (coordOfOrdinal_bijOn img.width img.height hW hH d).injOn
    have : o2 = o := hinj (Set.mem_Iio.mpr (by rw [← Image.sizePx]; omega))
      (Set.mem_Iio.mpr (by rw [← Image.sizePx]; exact ho)) heq
    omega

theorem encode_ok_fit (img : Image) (msg : List Nat) (d : Direction) (img2 : Image)
    (henc : encode img msg d = Except.ok img2) : 3 * msg.length ≤ img.sizePx := by
  by_contra h
  rw [show encode img msg d = (getModifiedPixels img msg d).map
      (fun mods => mods.foldl (fun im cp => im.putpixel cp.1 cp.2) img) from rfl] at henc
  unfold getModifiedPixels at henc
  rw [if_pos (by omega)] at henc
  simp [Except.map] at henc

theorem bit_lt2 (x : Nat) : x &&& 1 < 2 := by
  rw [Nat.and_one_is_mod]
  omega

set_option maxRecDepth 16384 in
theorem land254 : ∀ p, p < 256 → p &&& 254 = 2 * (p / 2) := by decide

theorem or_low (a b : Nat) (hb : b < 2) : (2 * a) ||| b = 2 * a + b := by
  have h := shiftLeft_or_eq a b 1 (by omega)
  rw [Nat.shiftLeft_eq, Nat.pow_one, Nat.mul_comm a 2] at h
  exact h

theorem channel_modPixel0 (pix : Pixel) (v o : Nat) (cont : Bool) :
    channel (modPixel pix v o cont) 0 = modChannel pix v o cont 0 := rfl

theorem channel_modPixel1 (pix : Pixel) (v o : Nat) (cont : Bool) :
    channel (modPixel pix v o cont) 1 = modChannel pix v o cont 1 := rfl

theorem channel_modPixel2 (pix : Pixel) (v o : Nat) (cont : Bool) :
    channel (modPixel pix v o cont) 2 = modChannel pix v o cont 2 := rfl

/-- Arithmetic form of a modified channel: twice the original upper bits plus
the fresh low bit. -/
theorem modChannel_arith (pix : Pixel) (v o : Nat) (cont : Bool) (k : Nat)
    (hp : channel pix k < 256) :
    modChannel pix v o cont k
      = 2 * (channel pix k / 2)
        + (if (o % 3) * 3 + k < 8
           then (v >>> (7 - ((o % 3) * 3 + k))) &&& 1
           else if cont then 1 else 0) := by
  unfold modChannel
  rw [show (2 : Nat) ^ 8 - 2 = 254 by norm_num]
  rw [land254 _ hp]
  by_cases hs : (o % 3) * 3 + k < 8
  · rw [if_pos hs, if_pos hs, or_low _ _ (bit_lt2 _)]
  · rw [if_neg hs, if_neg hs]
    cases cont with
    | false => simp
    | true => simp [or_low (channel pix k / 2) 1 (by omega)]

/-- C10: encoding changes only the least significant bit of each touched
channel: for slot `s < 8` the low bit becomes payload bit `s` (MSB first),
for slot 8 it becomes the continuation flag; the upper seven bits of every
touched channel and every pixel beyond ordinal `3 * L - 1` are unchanged. -/
theorem claim_C10_lsb_only (img : Image) (msg : List Nat) (d : Direction) (img2 : Image)
    (henc : encode img msg d = Except.ok img2)
    (hpix : ∀ c : Nat × Nat, ∀ k : Nat, channel (img.getpixel c) k < 256) :
    (∀ o, o < 3 * msg.length → ∀ k, k < 3 →
        channel (img2.getpixel (coordOfOrdinal img.width img.height d o)) k / 2
          = channel (img.getpixel (coordOfOrdinal img.width img.height d o)) k / 2
        ∧ channel (img2.getpixel (coordOfOrdinal img.width img.height d o)) k % 2
          = (if (o % 3) * 3 + k < 8
             then (msg.getD (o / 3) 0 >>> (7 - ((o % 3) * 3 + k))) &&& 1
             else if o / 3 < msg.length - 1 then 1 else 0))
    ∧ (∀ o, 3 * msg.length ≤ o → o < img.sizePx →
        img2.getpixel (coordOfOrdinal img.width img.height d o)
          = img.getpixel (coordOfOrdinal img.width img.height d o)) := by
  obtain ⟨hw, hh, hmod, hkeep⟩ :=
    encode_getpixel img msg d img2 (encode_ok_fit img msg d img2 henc) henc
  refine ⟨?_, hkeep⟩
  intro o ho k hk
  have harith : channel (img2.getpixel (coordOfOrdinal img.width img.height d o)) k
      = 2 * (channel (img.getpixel (coordOfOrdinal img.width img.height d o)) k / 2)
        + (if (o % 3) * 3 + k < 8
           then (msg.getD (o / 3) 0 >>> (7 - ((o % 3) * 3 + k))) &&& 1
           else if o / 3 < msg.length - 1 then 1 else 0) := by
    rw [hmod o ho]
    interval_cases k
    · rw [channel_modPixel0, modChannel_arith _ _ _ _ 0 (hpix _ 0)]
      congr 1
      by_cases hc : o / 3 < msg.length - 1 <;> simp [hc]
    · rw [channel_modPixel1, modChannel_arith _ _ _ _ 1 (hpix _ 1)]
      congr 1
      by_cases hc : o / 3 < msg.length - 1 <;> simp [hc]
    · rw [channel_modPixel2, modChannel_arith _ _ _ _ 2 (hpix _ 2)]
      congr 1
      by_cases hc : o / 3 < msg.length - 1 <;> simp [hc]
  have hb : (if (o % 3) * 3 + k < 8
      then (msg.getD (o / 3) 0 >>> (7 - ((o % 3) * 3 + k))) &&& 1
      else if o / 3 < msg.length - 1 then 1 else 0) < 2 := by
    split
    · exact bit_lt2 _
    · split <;> omega
  constructor
  · rw [harith]
    omega
  · rw [harith]
    omega

theorem encode_imgSpare : encode imgSpare [5] Direction.horizontal = Except.ok img2W := by
  rw [show encode imgSpare [5] Direction.horizontal
      = (getModifiedPixels imgSpare [5] Direction.horizontal).map
        (fun mods => mods.foldl (fun im cp => im.putpixel cp.1 cp.2) imgSpare) from rfl,
    getModifiedPixels_ok imgSpare [5] Direction.horizontal (by decide)]
  rfl

/-- Witness for C10 on the concrete 2 by 2 image and payload `[5]`. -/
theorem claim_C10_lsb_only_witness :
    (∀ o, o < 3 * ([5] : List Nat).length → ∀ k, k < 3 →
        channel (img2W.getpixel
            (coordOfOrdinal imgSpare.width imgSpare.height Direction.horizontal o)) k / 2
          = channel (imgSpare.getpixel
              (coordOfOrdinal imgSpare.width imgSpare.height Direction.horizontal o)) k / 2
        ∧ channel (img2W.getpixel
            (coordOfOrdinal imgSpare.width imgSpare.height Direction.horizontal o)) k % 2
          = (if (o % 3) * 3 + k < 8
             then (([5] : List Nat).getD (o / 3) 0 >>> (7 - ((o % 3) * 3 + k))) &&& 1
             else if o / 3 < ([5] : List Nat).length - 1 then 1 else 0))
    ∧ (∀ o, 3 * ([5] : List Nat).length ≤ o → o < imgSpare.sizePx →
        img2W.getpixel (coordOfOrdinal imgSpare.width imgSpare.height Direction.horizontal o)
          = imgSpare.getpixel
              (coordOfOrdinal imgSpare.width imgSpare.height Direction.horizontal o)) :=
  claim_C10_lsb_only imgSpare [5] Direction.horizontal img2W encode_imgSpare
    (fun c k => by rcases k with _ | _ | n <;> exact (by norm_num : (0 : Nat) < 256))

theorem readback0 (p : Nat) : (p &&& 254) &&& 1 = 0 := by
  rw [Nat.and_assoc]
  rw [show (254 : Nat) &&& 1 = 0 by decide]
  exact Nat.and_zero p

/-- Decoding reads back exactly the bit planted in a modified channel. -/
theorem readback (p b : Nat) (hb : b < 2) : ((p &&& 254) ||| b) &&& 1 = b := by
  interval_cases b
  · rw [Nat.or_zero]
    exact readback0 p
  · have hmod : (p &&& 254) % 2 = 0 := by
      rw [← Nat.and_one_is_mod]
      exact readback0 p
    rw [Nat.and_one_is_mod]
    have ht : ((p &&& 254) ||| 1).testBit 0 = true := by
      rw [Nat.testBit_lor, Nat.testBit_zero, Nat.testBit_zero]
      simp [hmod]
    rw [Nat.testBit_zero] at ht
    simpa using ht

theorem step_bit2 (m x : Nat) : (m <<< 1) ||| (x &&& 1) = 2 * m + (x &&& 1) := by
  have h := shiftLeft_or_eq m (x &&& 1) 1 (by simpa using bit_lt2 x)
  rw [Nat.pow_one, Nat.mul_comm m 2] at h
  exact h

theorem dcs_bit (i : Nat) (pix : Pixel) (m sz : Nat) (g : Bool) (j : Nat)
    (hj : (i % 3) * 3 + j < 8) :
    decodeChannelStep i pix (m, sz, g) j
      = ((m <<< 1) ||| (channel pix j &&& 1), sz + 1, true) := by
  unfold decodeChannelStep
  rw [if_pos hj]

/-- The eight planted bits, shifted back in MSB-first order, rebuild the
payload byte. -/
theorem accByte (m v : Nat) (hv : v < 256) :
    2 * (2 * (2 * (2 * (2 * (2 * (2 * (2 * m + ((v >>> 7) &&& 1)) + ((v >>> 6) &&& 1))
      + ((v >>> 5) &&& 1)) + ((v >>> 4) &&& 1)) + ((v >>> 3) &&& 1)) + ((v >>> 2) &&& 1))
      + ((v >>> 1) &&& 1)) + (v &&& 1) = m * 256 + v := by
  simp only [Nat.shiftRight_eq_div_pow, Nat.and_one_is_mod]
  norm_num
  omega

theorem readback_mod (p x : Nat) : ((p &&& 254) ||| (x % 2)) % 2 = x % 2 := by
  have h := readback p (x % 2) (by omega)
  rwa [Nat.and_one_is_mod] at h

theorem readback0_mod (p : Nat) : (p &&& 254) % 2 = 0 := by
  have h := readback0 p
  rwa [Nat.and_one_is_mod] at h

theorem readback1_mod (p : Nat) : ((p &&& 254) ||| 1) % 2 = 1 := by
  have h := readback p 1 (by omega)
  rwa [Nat.and_one_is_mod] at h

theorem decodeStep_true (img2 : Image) (d : Direction) (m sz : Nat) (i : Nat) :
    decodeStep img2 d (m, sz, true) i
      = [0, 1, 2].foldl (decodeChannelStep i (img2.getPixel d i).2) (m, sz, true) := rfl

theorem dcs_flag_stop (i : Nat) (pix : Pixel) (m sz : Nat) (g : Bool) (j : Nat)
    (hj : ¬ ((i % 3) * 3 + j < 8)) (hch : channel pix j &&& 1 = 0) :
    decodeChannelStep i pix (m, sz, g) j = (m, sz, false) := by
  unfold decodeChannelStep
  rw [if_neg hj, if_neg (by simp [hch])]

theorem dcs_flag_go (i : Nat) (pix : Pixel) (m sz : Nat) (g : Bool) (j : Nat)
    (hj : ¬ ((i % 3) * 3 + j < 8)) (hch : channel pix j &&& 1 = 1) :
    decodeChannelStep i pix (m, sz, g) j = (m, sz, true) := by
  unfold decodeChannelStep
  rw [if_neg hj, if_pos (by simp [hch])]

/-- Decoding the three pixels of one payload byte accumulates that byte and
ends in the byte's continuation flag. -/
theorem byteBlock (img2 : Image) (d : Direction) (i v : Nat) (hv : v < 256)
    (cont : Bool) (p0 p1 p2 : Pixel)
    (h0 : (img2.getPixel d (3 * i)).2 = modPixel p0 v (3 * i) cont)
    (h1 : (img2.getPixel d (3 * i + 1)).2 = modPixel p1 v (3 * i + 1) cont)
    (h2 : (img2.getPixel d (3 * i + 2)).2 = modPixel p2 v (3 * i + 2) cont)
    (m sz : Nat) :
    List.foldl (decodeStep img2 d) (m, sz, true) [3 * i, 3 * i + 1, 3 * i + 2]
      = (m * 256 + v, sz + 8, cont) := by
  have hm0 : (3 * i) % 3 = 0 := Nat.mul_mod_right 3 i
  have hm1 : (3 * i + 1) % 3 = 1 := by omega
  have hm2 : (3 * i + 2) % 3 = 2 := by omega
  have c00 : channel (img2.getPixel d (3 * i)).2 0 &&& 1 = (v >>> 7) &&& 1 := by
    rw [h0, channel_modPixel0]
    unfold modChannel
    rw [hm0]
    norm_num
    exact readback_mod _ _
  have c01 : channel (img2.getPixel d (3 * i)).2 1 &&& 1 = (v >>> 6) &&& 1 := by
    rw [h0, channel_modPixel1]
    unfold modChannel
    rw [hm0]
    norm_num
    exact readback_mod _ _
  have c02 : channel (img2.getPixel d (3 * i)).2 2 &&& 1 = (v >>> 5) &&& 1 := by
    rw [h0, channel_modPixel2]
    unfold modChannel
    rw [hm0]
    norm_num
    exact readback_mod _ _
  have c10 : channel (img2.getPixel d (3 * i + 1)).2 0 &&& 1 = (v >>> 4) &&& 1 := by
    rw [h1, channel_modPixel0]
    unfold modChannel
    rw [hm1]
    norm_num
    exact readback_mod _ _
  have c11 : channel (img2.getPixel d (3 * i + 1)).2 1 &&& 1 = (v >>> 3) &&& 1 := by
    rw [h1, channel_modPixel1]
    unfold modChannel
    rw [hm1]
    norm_num
    exact readback_mod _ _
  have c12 : channel (img2.getPixel d (3 * i + 1)).2 2 &&& 1 = (v >>> 2) &&& 1 := by
    rw [h1, channel_modPixel2]
    unfold modChannel
    rw [hm1]
    norm_num
    exact readback_mod _ _
  have c20 : channel (img2.getPixel d (3 * i + 2)).2 0 &&& 1 = (v >>> 1) &&& 1 := by
    rw [h2, channel_modPixel0]
    unfold modChannel
    rw [hm2]
    norm_num
    exact readback_mod _ _
  have c21 : channel (img2.getPixel d (3 * i + 2)).2 1 &&& 1 = v &&& 1 := by
    rw [h2, channel_modPixel1]
    unfold modChannel
    rw [hm2]
    norm_num
    exact readback_mod _ _
  rw [List.foldl_cons, List.foldl_cons, List.foldl_cons, List.foldl_nil]
  rw [decodeStep_true]
  rw [List.foldl_cons, List.foldl_cons, List.foldl_cons, List.foldl_nil]
  rw [dcs_bit _ _ _ _ _ 0 (by omega), c00, step_bit2]
  rw [dcs_bit _ _ _ _ _ 1 (by omega), c01, step_bit2]
  rw [dcs_bit _ _ _ _ _ 2 (by omega), c02, step_bit2]
  rw [decodeStep_true]
  rw [List.foldl_cons, List.foldl_cons, List.foldl_cons, List.foldl_nil]
  rw [dcs_bit _ _ _ _ _ 0 (by omega), c10, step_bit2]
  rw [dcs_bit _ _ _ _ _ 1 (by omega), c11, step_bit2]
  rw [dcs_bit _ _ _ _ _ 2 (by omega), c12, step_bit2]
  rw [decodeStep_true]
  rw [List.foldl_cons, List.foldl_cons, List.foldl_cons, List.foldl_nil]
  rw [dcs_bit _ _ _ _ _ 0 (by omega), c20, step_bit2]
  rw [dcs_bit _ _ _ _ _ 1 (by omega), c21, step_bit2]
  cases cont with
  | false =>
    have c22 : channel (img2.getPixel d (3 * i + 2)).2 2 &&& 1 = 0 := by
      rw [h2, channel_modPixel2]
      unfold modChannel
      rw [hm2]
      norm_num
      exact readback0_mod _
    rw [dcs_flag_stop _ _ _ _ _ 2 (by omega) c22]
    simp only [Prod.mk.injEq]
    exact ⟨accByte m v hv, trivial⟩
  | true =>
    have c22 : channel (img2.getPixel d (3 * i + 2)).2 2 &&& 1 = 1 := by
      rw [h2, channel_modPixel2]
      unfold modChannel
      rw [hm2]
      norm_num
    rw [dcs_flag_go _ _ _ _ _ 2 (by omega) c22]
    simp only [Prod.mk.injEq]
    exact ⟨accByte m v hv, trivial⟩

theorem fromBytesBE_take_succ (msg : List Nat) (m : Nat) (hm : m < msg.length) :
    fromBytesBE (msg.take (m + 1)) = fromBytesBE (msg.take m) * 256 + msg.getD m 0 := by
  rw [List.take_succ, List.getElem?_eq_getElem hm]
  rw [show (some msg[m]).toList = [msg[m]] from rfl]
  rw [fromBytesBE_concat]
  congr 1
  rw [List.getD_eq_getElem?_getD, List.getElem?_eq_getElem hm]
  rfl

theorem getD_mem (msg : List Nat) (m : Nat) (hm : m < msg.length) :
    msg.getD m 0 ∈ msg := by
  rw [List.getD_eq_getElem?_getD, List.getElem?_eq_getElem hm]
  exact List.getElem_mem hm

/-- Once the stop flag is cleared, the rest of the traversal is a no-op. -/
theorem foldl_decodeStep_stop (img2 : Image) (d : Direction) (l : List Nat)
    (m sz : Nat) : l.foldl (decodeStep img2 d) (m, sz, false) = (m, sz, false) := by
  induction l with
  | nil => rfl
  | cons i t ih =>
    rw [List.foldl_cons, show decodeStep img2 d (m, sz, false) i = (m, sz, false) from rfl, ih]

/-- Invariant of the decode loop over an encoded image: after the pixels of
the first `m` payload bytes, the accumulator holds those bytes, the bit
count is `8 * m`, and the loop goes on exactly while bytes remain. -/
theorem decode_fold_inv (img2 : Image) (d : Direction) (msg : List Nat)
    (hwf : ∀ b ∈ msg, b < 256)
    (hpx : ∀ o, o < 3 * msg.length → ∃ p : Pixel,
      (img2.getPixel d o).2
        = modPixel p (msg.getD (o / 3) 0) o (decide (o / 3 < msg.length - 1))) :
    ∀ m, m ≤ msg.length →
    (List.range (3 * m)).foldl (decodeStep img2 d) (0, 0, true)
      = (fromBytesBE (msg.take m), 8 * m, decide (m = 0 ∨ m < msg.length)) := by
  intro m
  induction m with
  | zero =>
    intro _
    simp [fromBytesBE]
  | succ n ih =>
    intro hm
    have hn : n ≤ msg.length := by omega
    have hrange : List.range (3 * (n + 1))
        = List.range (3 * n) ++ [3 * n, 3 * n + 1, 3 * n + 2] := by
      rw [show 3 * (n + 1) = 3 * n + 3 by ring, List.range_add]
      rfl
    rw [hrange, List.foldl_append, ih hn]
    rw [show (decide (n = 0 ∨ n < msg.length)) = true by simp; omega]
    obtain ⟨q0, hq0⟩ := hpx (3 * n) (by omega)
    obtain ⟨q1, hq1⟩ := hpx (3 * n + 1) (by omega)
    obtain ⟨q2, hq2⟩ := hpx (3 * n + 2) (by omega)
    rw [show 3 * n / 3 = n by omega] at hq0
    rw [show (3 * n + 1) / 3 = n by omega] at hq1
    rw [show (3 * n + 2) / 3 = n by omega] at hq2
    have hv : msg.getD n 0 < 256 := hwf _ (getD_mem msg n (by omega))
    rw [byteBlock img2 d n (msg.getD n 0) hv (decide (n < msg.length - 1)) q0 q1 q2
      hq0 hq1 hq2]
    simp only [Prod.mk.injEq]
    refine ⟨(fromBytesBE_take_succ msg n (by omega)).symm, by omega, ?_⟩
    rw [decide_eq_decide]
    omega

/-- C2, as the code satisfies it: whenever the payload is non-empty, its
bytes are bytes, and at least one pixel is left spare (`3 * L < S`, strictly:
the decode loop never reads the last pixel), decoding the encoded image with
the same direction returns exactly the payload. -/
theorem claim_C2_stego_round_trip (img : Image) (msg : List Nat) (d : Direction)
    (hne : msg ≠ []) (hwf : ∀ b ∈ msg, b < 256)
    (hfit : 3 * msg.length < img.sizePx) :
    (encode img msg d).map (fun im => decode im d) = Except.ok (some msg) := by
  have hfit2 : 3 * msg.length ≤ img.sizePx := by omega
  have hL1 : 1 ≤ msg.length := by
    cases msg with
    | nil => exact absurd rfl hne
    | cons b t => simp
  have henc : encode img msg d = Except.ok
      (((List.range (3 * msg.length)).map (fun o => ((img.getPixel d o).1,
        modPixel (img.getPixel d o).2 (msg.getD (o / 3) 0) o
          (decide (o / 3 < msg.length - 1))))).foldl
        (fun im cp => im.putpixel cp.1 cp.2) img) := by
    rw [show encode img msg d = (getModifiedPixels img msg d).map
        (fun mods => mods.foldl (fun im cp => im.putpixel cp.1 cp.2) img) from rfl,
      getModifiedPixels_ok img msg d hfit2]
    rfl
  obtain ⟨img2, henc2⟩ : ∃ im, encode img msg d = Except.ok im := ⟨_, henc⟩
  obtain ⟨hw, hh, hmod, hkeep⟩ := encode_getpixel img msg d img2 hfit2 henc2
  rw [henc2]
  simp only [Except.map]
  congr 1
  have hSz : img2.sizePx = img.sizePx := by
    rw [Image.sizePx, hw, hh]
    rfl
  have hpx : ∀ o, o < 3 * msg.length → ∃ p : Pixel,
      (img2.getPixel d o).2
        = modPixel p (msg.getD (o / 3) 0) o (decide (o / 3 < msg.length - 1)) := by
    intro o ho
    refine ⟨img.getpixel (coordOfOrdinal img.width img.height d o), ?_⟩
    show img2.getpixel (coordOfOrdinal img2.width img2.height d o) = _
    rw [hw, hh]
    exact hmod o ho
  have hsplit : List.range (img2.sizePx - 1)
      = List.range (3 * msg.length)
        ++ (List.range (img2.sizePx - 1 - 3 * msg.length)).map ((3 * msg.length) + ·) := by
    have hfit3 : 3 * msg.length < img2.sizePx := by
      rw [hSz]
      exact hfit
    rw [← List.range_add]
    congr 1
    omega
  unfold decode
  rw [hsplit, List.foldl_append]
  rw [decode_fold_inv img2 d msg hwf hpx msg.length (Nat.le_refl _)]
  rw [List.take_length]
  rw [show (decide (msg.length = 0 ∨ msg.length < msg.length)) = false from
    decide_eq_false (by omega)]
  rw [foldl_decodeStep_stop]
  simp only
  rw [show (8 * msg.length + 7) / 8 = msg.length by omega]
  have hbytes : toBytesBE msg.length (fromBytesBE msg) = msg := toBytesBE_fromBytesBE msg hwf
  simp [hbytes]

/-- Counterexample to C2 as stated: on a 3-pixel image a 1-byte payload
satisfies `3 * L ≤ S` and encodes fine, but the decode loop stops before the
last pixel, never sees the termination flag, and reports no message. -/
theorem claim_C2_counterexample :
    3 * ([0] : List Nat).length ≤ imgTight.sizePx
    ∧ ([0] : List Nat) ≠ []
    ∧ (∀ b ∈ ([0] : List Nat), b < 256)
    ∧ (encode imgTight [0] Direction.horizontal).map
        (fun im => decode im Direction.horizontal) = Except.ok none
    ∧ (Except.ok (none : Option (List Nat)) : Except StegoError (Option (List Nat)))
        ≠ Except.ok (some [0]) := by
  refine ⟨by decide, by decide, by decide, by rfl, by simp⟩

/-- Witness for the amended C2 on a 2 by 2 image, payload `[5]`, vertical
traversal. -/
theorem claim_C2_stego_round_trip_witness :
    (encode imgSpare [5] Direction.vertical).map (fun im => decode im Direction.vertical)
      = Except.ok (some [5]) :=
  claim_C2_stego_round_trip imgSpare [5] Direction.vertical (by decide) (by decide) (by decide)
